import Mathlib

/-!
# Verification of the `job_records` store module

A shallow embedding of the core state-reconciliation module of the
`job_records` repository (`useStore`, two versions: with and without audit
logs), together with theorems about its ordering invariant, cascading
deletes, audit logging, move/reorder semantics and the equivalence of the
two store versions.

Conventions of the embedding:
* TypeScript `number` fields (`order`, `createdAt`, `timestamp`) are
  modelled as `Int`; list indices passed to `moveRecord` are modelled as
  `Nat` (the UI passes drag positions, which are array indices).
* `generateId()` and `Date.now()` are nondeterministic inputs; every
  operation that calls them takes the generated ids / timestamp as extra
  parameters.
* JavaScript `Array.prototype.sort` is stable (ES2019), so sorting by
  `(a, b) => a.order - b.order` is modelled by a stable insertion sort.
* `arr.splice(i, 0, x)` inserts at position `min i arr.length`; it is
  modelled by `spliceIn`.
* The `forEach` loops that write orders back through
  `newRecords.findIndex(nr => nr.id === r.id)` are modelled by
  `applyOrders1` / `applyOrders2`, which update the first entry with the
  matching id (exactly what the JS assignment to `newRecords[idx]` does;
  an index of `-1` leaves the array elements unchanged).
-/

inductive RecordType where
  | normal
  | milestone
  | todo
deriving DecidableEq

structure RecordItem where
  id : String
  projectId : String
  categoryId : String
  title : String
  content : String
  type : RecordType
  date : Option String
  createdAt : Int
  order : Int
deriving DecidableEq

structure Project where
  id : String
  name : String
  order : Int
deriving DecidableEq

structure Category where
  id : String
  projectId : String
  name : String
  order : Int
deriving DecidableEq

structure ProjectLog where
  id : String
  projectId : String
  content : String
  timestamp : Int
deriving DecidableEq

structure AppState where
  projects : List Project
  categories : List Category
  records : List RecordItem
  logs : List ProjectLog
deriving DecidableEq

/-- The argument of `addRecord`: `Omit<RecordItem, 'id' | 'createdAt' | 'order'>`. -/
structure RecordInput where
  projectId : String
  categoryId : String
  title : String
  content : String
  type : RecordType
  date : Option String
deriving DecidableEq

/-- The argument of `updateRecord`: `Partial<RecordItem>`; a `none` field is
an absent key. -/
structure RecordUpdates where
  id : Option String := none
  projectId : Option String := none
  categoryId : Option String := none
  title : Option String := none
  content : Option String := none
  type : Option RecordType := none
  date : Option (Option String) := none
  createdAt : Option Int := none
  order : Option Int := none
deriving DecidableEq

/-- The JS spread `{ ...r, ...updates }`. -/
def applyUpdates (r : RecordItem) (u : RecordUpdates) : RecordItem :=
  { id := u.id.getD r.id
    projectId := u.projectId.getD r.projectId
    categoryId := u.categoryId.getD r.categoryId
    title := u.title.getD r.title
    content := u.content.getD r.content
    type := u.type.getD r.type
    date := u.date.getD r.date
    createdAt := u.createdAt.getD r.createdAt
    order := u.order.getD r.order }

/-- Stable insertion into a list sorted by ascending `order`: the new
element goes before the first element whose `order` is not smaller, which
matches the stable JS `sort((a, b) => a.order - b.order)`. -/
def insertByOrder (x : RecordItem) : List RecordItem → List RecordItem
  | [] => [x]
  | y :: ys => if x.order ≤ y.order then x :: y :: ys else y :: insertByOrder x ys

/-- Model of `arr.sort((a, b) => a.order - b.order)` (stable, ascending). -/
def sortByOrder : List RecordItem → List RecordItem
  | [] => []
  | x :: xs => insertByOrder x (sortByOrder xs)

/-- Model of `arr.splice(n, 0, x)`: insert `x` at position `min n arr.length`. -/
def spliceIn (n : Nat) (x : RecordItem) : List RecordItem → List RecordItem
  | [] => [x]
  | y :: ys =>
    match n with
    | 0 => x :: y :: ys
    | m + 1 => y :: spliceIn m x ys

/-- Model of `arr.findIndex(r => r.id === i)` packaged with the found
element (`arr[idx]`): returns the first element with the given id and its
index. -/
def posFind : List RecordItem → String → Option (RecordItem × Nat)
  | [], _ => none
  | r :: rs, i =>
    if r.id == i then some (r, 0)
    else (posFind rs i).map (fun q => (q.1, q.2 + 1))

/-- Model of `newRecords[idx] = { ...newRecords[idx], order: o }` where
`idx = newRecords.findIndex(nr => nr.id === i)`: updates the `order` of the
first entry with the matching id (no entry changes when the id is absent,
as `newRecords[-1] = ...` does not touch any array element). -/
def setOrderById : List RecordItem → String → Int → List RecordItem
  | [], _, _ => []
  | x :: xs, i, o =>
    if x.id == i then { x with order := o } :: xs else x :: setOrderById xs i o

/-- Model of `newRecords[idx] = { ...r, order: o }` where
`idx = newRecords.findIndex(nr => nr.id === r.id)` and the assignment is
guarded by `idx !== -1`: replaces the first entry whose id matches `r.id`
by `r` with the given order. -/
def replaceById : List RecordItem → RecordItem → Int → List RecordItem
  | [], _, _ => []
  | x :: xs, r, o =>
    if x.id == r.id then { r with order := o } :: xs else x :: replaceById xs r o

/-- The reindexing `forEach` of the same-category branch of `moveRecord`
and of the source category of the cross-category branch:
`group.forEach((r, i) => { const idx = newRecords.findIndex(nr => nr.id === r.id); newRecords[idx] = { ...newRecords[idx], order: i }; })`,
started at position `k`. -/
def applyOrders1 : List RecordItem → List RecordItem → Nat → List RecordItem
  | recs, [], _ => recs
  | recs, r :: rs, k => applyOrders1 (setOrderById recs r.id (Int.ofNat k)) rs (k + 1)

/-- The reindexing `forEach` of the destination category of the
cross-category branch of `moveRecord`:
`group.forEach((r, i) => { const idx = newRecords.findIndex(nr => nr.id === r.id); if (idx !== -1) newRecords[idx] = { ...r, order: i }; })`. -/
def applyOrders2 : List RecordItem → List RecordItem → Nat → List RecordItem
  | recs, [], _ => recs
  | recs, r :: rs, k => applyOrders2 (replaceById recs r (Int.ofNat k)) rs (k + 1)

/-! ## The store operations, version with audit logs (first copy of `useStore`) -/

def addProject (name pid cid1 cid2 cid3 cid4 lid : String) (now : Int)
    (s : AppState) : AppState :=
  { s with
    projects := s.projects ++ [{ id := pid, name := name, order := Int.ofNat s.projects.length }]
    categories := s.categories ++
      [{ id := cid1, projectId := pid, name := "需求", order := 0 },
       { id := cid2, projectId := pid, name := "设计", order := 1 },
       { id := cid3, projectId := pid, name := "开发", order := 2 },
       { id := cid4, projectId := pid, name := "测试", order := 3 }]
    logs := s.logs ++ [{ id := lid, projectId := pid, content := "增加项目: " ++ name, timestamp := now }] }

def updateProject (id name : String) (s : AppState) : AppState :=
  { s with projects := s.projects.map (fun p => if p.id == id then { p with name := name } else p) }

def deleteProject (id : String) (s : AppState) : AppState :=
  { s with
    projects := s.projects.filter (fun p => p.id != id)
    categories := s.categories.filter (fun c => c.projectId != id)
    records := s.records.filter (fun r => r.projectId != id)
    logs := s.logs.filter (fun l => l.projectId != id) }

def reorderProjects (newProjects : List Project) (s : AppState) : AppState :=
  { s with projects := newProjects }

def addCategory (name projectId cid : String) (s : AppState) : AppState :=
  { s with categories := s.categories ++
      [{ id := cid, projectId := projectId, name := name,
         order := Int.ofNat (s.categories.filter (fun c => c.projectId == projectId)).length }] }

def updateCategory (id name : String) (s : AppState) : AppState :=
  { s with categories := s.categories.map (fun c => if c.id == id then { c with name := name } else c) }

def deleteCategory (id : String) (s : AppState) : AppState :=
  { s with
    categories := s.categories.filter (fun c => c.id != id)
    records := s.records.filter (fun r => r.categoryId != id) }

def reorderCategories (newCategories : List Category) (s : AppState) : AppState :=
  { s with categories := s.categories.map (fun c =>
      match newCategories.find? (fun nc => nc.id == c.id) with
      | some nc => { c with order := nc.order }
      | none => c) }

def addRecord (record : RecordInput) (rid lid : String) (now : Int)
    (s : AppState) : AppState :=
  let projectRecords := s.records.filter
    (fun r => r.projectId == record.projectId && r.categoryId == record.categoryId)
  let newRecord : RecordItem :=
    { id := rid, projectId := record.projectId, categoryId := record.categoryId,
      title := record.title, content := record.content, type := record.type,
      date := record.date, createdAt := now, order := Int.ofNat projectRecords.length }
  let logContent := if record.type == RecordType.milestone
    then "增加里程碑: " ++ record.title else "增加记录: " ++ record.title
  { s with
    records := s.records ++ [newRecord]
    logs := s.logs ++ [{ id := lid, projectId := record.projectId, content := logContent, timestamp := now }] }

def updateRecord (id : String) (updates : RecordUpdates) (lid : String) (now : Int)
    (s : AppState) : AppState :=
  let newLogs :=
    match s.records.find? (fun r => r.id == id) with
    | some oldRecord =>
      if oldRecord.type == RecordType.todo &&
          (match updates.type with | some t => t != RecordType.todo | none => false) then
        s.logs ++ [{ id := lid, projectId := oldRecord.projectId,
                     content := "完成待办任务: " ++ oldRecord.title, timestamp := now }]
      else s.logs
    | none => s.logs
  { s with
    records := s.records.map (fun r => if r.id == id then applyUpdates r updates else r)
    logs := newLogs }

def deleteRecord (id lid : String) (now : Int) (s : AppState) : AppState :=
  match s.records.find? (fun r => r.id == id) with
  | none => s
  | some recordToDelete =>
    { s with
      records := s.records.filter (fun r => r.id != id)
      logs := s.logs ++ [{ id := lid, projectId := recordToDelete.projectId,
                           content := "删除记录: " ++ recordToDelete.title, timestamp := now }] }

def deleteLogs (logIds : List String) (s : AppState) : AppState :=
  { s with logs := s.logs.filter (fun l => !(logIds.contains l.id)) }

/-- The record-list transformation performed by `moveRecord`. The body is
identical in both copies of `useStore`. The inner `match` on
`posFind categoryRecords recordId` can only take the `some` branch, because
the moved record itself satisfies the category filter. -/
def moveRecordAux (recs : List RecordItem) (recordId newCategoryId : String)
    (newOrder : Nat) : List RecordItem :=
  match recs.find? (fun r => r.id == recordId) with
  | none => recs
  | some record =>
    let oldCategoryId := record.categoryId
    if oldCategoryId == newCategoryId then
      let categoryRecords := sortByOrder (recs.filter
        (fun r => r.categoryId == oldCategoryId && r.projectId == record.projectId))
      match posFind categoryRecords recordId with
      | none => recs
      | some q =>
        let spliced := spliceIn newOrder q.1 (categoryRecords.eraseIdx q.2)
        applyOrders1 recs spliced 0
    else
      let oldCategoryRecords := sortByOrder (recs.filter
        (fun r => r.categoryId == oldCategoryId && r.projectId == record.projectId && r.id != recordId))
      let recs1 := applyOrders1 recs oldCategoryRecords 0
      let newCategoryRecords := sortByOrder (recs1.filter
        (fun r => r.categoryId == newCategoryId && r.projectId == record.projectId))
      let movedRecord := { record with categoryId := newCategoryId }
      let spliced := spliceIn newOrder movedRecord newCategoryRecords
      applyOrders2 recs1 spliced 0

def moveRecord (recordId newCategoryId : String) (newOrder : Nat)
    (s : AppState) : AppState :=
  { s with records := moveRecordAux s.records recordId newCategoryId newOrder }

def importData (data : AppState) (_s : AppState) : AppState := data

/-! ## The store operations, version without audit logs (second copy of `useStore`) -/

namespace V2

structure AppState where
  projects : List Project
  categories : List Category
  records : List RecordItem
deriving DecidableEq

def addProject (name pid cid1 cid2 cid3 cid4 : String) (s : AppState) : AppState :=
  { s with
    projects := s.projects ++ [{ id := pid, name := name, order := Int.ofNat s.projects.length }]
    categories := s.categories ++
      [{ id := cid1, projectId := pid, name := "需求", order := 0 },
       { id := cid2, projectId := pid, name := "设计", order := 1 },
       { id := cid3, projectId := pid, name := "开发", order := 2 },
       { id := cid4, projectId := pid, name := "测试", order := 3 }] }

def updateProject (id name : String) (s : AppState) : AppState :=
  { s with projects := s.projects.map (fun p => if p.id == id then { p with name := name } else p) }

def deleteProject (id : String) (s : AppState) : AppState :=
  { s with
    projects := s.projects.filter (fun p => p.id != id)
    categories := s.categories.filter (fun c => c.projectId != id)
    records := s.records.filter (fun r => r.projectId != id) }

def reorderProjects (newProjects : List Project) (s : AppState) : AppState :=
  { s with projects := newProjects }

def addCategory (name projectId cid : String) (s : AppState) : AppState :=
  { s with categories := s.categories ++
      [{ id := cid, projectId := projectId, name := name,
         order := Int.ofNat (s.categories.filter (fun c => c.projectId == projectId)).length }] }

def updateCategory (id name : String) (s : AppState) : AppState :=
  { s with categories := s.categories.map (fun c => if c.id == id then { c with name := name } else c) }

def deleteCategory (id : String) (s : AppState) : AppState :=
  { s with
    categories := s.categories.filter (fun c => c.id != id)
    records := s.records.filter (fun r => r.categoryId != id) }

def reorderCategories (newCategories : List Category) (s : AppState) : AppState :=
  { s with categories := s.categories.map (fun c =>
      match newCategories.find? (fun nc => nc.id == c.id) with
      | some nc => { c with order := nc.order }
      | none => c) }

def addRecord (record : RecordInput) (rid : String) (now : Int)
    (s : AppState) : AppState :=
  let projectRecords := s.records.filter
    (fun r => r.projectId == record.projectId && r.categoryId == record.categoryId)
  let newRecord : RecordItem :=
    { id := rid, projectId := record.projectId, categoryId := record.categoryId,
      title := record.title, content := record.content, type := record.type,
      date := record.date, createdAt := now, order := Int.ofNat projectRecords.length }
  { s with records := s.records ++ [newRecord] }

def updateRecord (id : String) (updates : RecordUpdates) (s : AppState) : AppState :=
  { s with records := s.records.map (fun r => if r.id == id then applyUpdates r updates else r) }

def deleteRecord (id : String) (s : AppState) : AppState :=
  { s with records := s.records.filter (fun r => r.id != id) }

def moveRecord (recordId newCategoryId : String) (newOrder : Nat)
    (s : AppState) : AppState :=
  { s with records := moveRecordAux s.records recordId newCategoryId newOrder }

def importData (data : AppState) (_s : AppState) : AppState := data

end V2

/-- Forget the audit log: the common core of the two versions of the state. -/
def stripLogs (s : AppState) : V2.AppState :=
  { projects := s.projects, categories := s.categories, records := s.records }

/-! ## The ordering invariant -/

/-- Membership test of the record group that every reindexing operation of
the store works on: the records of one category inside one project. -/
def catProj (c p : String) (r : RecordItem) : Bool :=
  r.categoryId == c && r.projectId == p

/-- The `order` fields of the `(category, project)` group are exactly
`0, 1, ..., n-1` (as a multiset). -/
def groupOk (recs : List RecordItem) (c p : String) : Prop :=
  List.Perm ((recs.filter (catProj c p)).map (fun r => r.order))
    ((List.range (recs.filter (catProj c p)).length).map Int.ofNat)

/-- The ordering invariant: every inhabited `(category, project)` group of
records carries contiguous zero-based orders. -/
def OrdersInv (recs : List RecordItem) : Prop :=
  ∀ r ∈ recs, groupOk recs r.categoryId r.projectId

instance (recs : List RecordItem) (c p : String) : Decidable (groupOk recs c p) := by
  unfold groupOk
  infer_instance

instance (recs : List RecordItem) : Decidable (OrdersInv recs) := by
  unfold OrdersInv
  infer_instance

/-! ## Derived functions used to state and prove the theorems -/

/-- The list of record ids, in list order. -/
def idsOf (l : List RecordItem) : List String :=
  l.map (fun r => r.id)

/-- The position of the first record with the given id (junk value `0` when
the id is absent). -/
def posIdx (g : List RecordItem) (i : String) : Nat :=
  match posFind g i with
  | some q => q.2
  | none => 0

/-- A record updated with its position in `g` as its order, keeping all its
other fields: the effect of one step of `applyOrders1` seen from the
updated entry. -/
def keepOrd (g : List RecordItem) (x : RecordItem) : RecordItem :=
  match posFind g x.id with
  | some q => { x with order := Int.ofNat q.2 }
  | none => x

/-- The entry of `g` carrying the same id as `x`, with its position in `g`
as its order: the effect of one step of `applyOrders2` seen from the
updated entry. -/
def lookupOrd (g : List RecordItem) (x : RecordItem) : RecordItem :=
  match posFind g x.id with
  | some q => { q.1 with order := Int.ofNat q.2 }
  | none => x

/-- `reindexFrom k g` gives the records of `g` consecutive orders starting
at `k`. -/
def reindexFrom : Nat → List RecordItem → List RecordItem
  | _, [] => []
  | k, r :: rs => { r with order := Int.ofNat k } :: reindexFrom (k + 1) rs

/-- The sorted `(category, project)` group that the same-category branch of
`moveRecord` splices: all records sharing the moved record's category and
project, sorted by order. -/
def gSameOf (recs : List RecordItem) (record : RecordItem) : List RecordItem :=
  sortByOrder (recs.filter
    (fun r => r.categoryId == record.categoryId && r.projectId == record.projectId))

/-- The sorted source group of the cross-category branch of `moveRecord`:
the moved record's category and project, without the moved record. -/
def gOldOf (recs : List RecordItem) (record : RecordItem) (rid : String) : List RecordItem :=
  sortByOrder (recs.filter
    (fun r => r.categoryId == record.categoryId && r.projectId == record.projectId && r.id != rid))

/-- The sorted destination group of the cross-category branch of
`moveRecord`: the destination category within the moved record's project. -/
def gNewOf (recs : List RecordItem) (record : RecordItem) (cn : String) : List RecordItem :=
  sortByOrder (recs.filter (fun r => r.categoryId == cn && r.projectId == record.projectId))

/-- The spliced destination group of the cross-category branch: the moved
record (with its new category) inserted at the requested position. -/
def splOf (recs : List RecordItem) (record : RecordItem) (cn : String) (n : Nat) : List RecordItem :=
  spliceIn n { record with categoryId := cn } (gNewOf recs record cn)

/-- Two records agree on every field other than `categoryId` and `order`. -/
def SameCore (a b : RecordItem) : Prop :=
  a.id = b.id ∧ a.projectId = b.projectId ∧ a.title = b.title ∧
  a.content = b.content ∧ a.type = b.type ∧ a.date = b.date ∧ a.createdAt = b.createdAt

instance (a b : RecordItem) : Decidable (SameCore a b) := by
  unfold SameCore
  infer_instance

/-! ## Concrete states used in witnesses and counterexamples -/

/-- A minimal record for concrete test states. -/
def mkRec (i p c : String) (o : Int) : RecordItem :=
  { id := i, projectId := p, categoryId := c, title := i, content := "",
    type := RecordType.normal, date := none, createdAt := 0, order := o }

/-- A state whose records all live in category `A` of project `P`, with
orders `0` and `1`. -/
def stPair : AppState :=
  { projects := [], categories := [], logs := [],
    records := [mkRec "r1" "P" "A" 0, mkRec "r2" "P" "A" 1] }

/-- A category shared by two projects: record `m` of project `P` and record
`x` of project `Q` both sit in category `A`. -/
def stShared : AppState :=
  { projects := [], categories := [], logs := [],
    records := [mkRec "m" "P" "A" 0, mkRec "x" "Q" "A" 7] }

/-- A category shared by two projects with orders `0, 1`: the whole
category is contiguously ordered, but the records belong to two projects. -/
def stShared01 : AppState :=
  { projects := [], categories := [], logs := [],
    records := [mkRec "m" "P" "A" 0, mkRec "x" "Q" "A" 1] }

/-- Category `A` holds records of projects `P` and `Q` interleaved by
order: `m (P, 0)`, `x (Q, 1)`, `c (P, 2)`. -/
def stInterleaved : AppState :=
  { projects := [], categories := [], logs := [],
    records := [mkRec "m" "P" "A" 0, mkRec "x" "Q" "A" 1, mkRec "c" "P" "A" 2] }

/-- Three records of one project: two in category `A`, one in category `B`. -/
def stTwoCats : AppState :=
  { projects := [], categories := [], logs := [],
    records := [mkRec "a" "P" "A" 0, mkRec "b" "P" "A" 1, mkRec "d" "P" "B" 0] }

/-! ## Basic lemmas about the list helpers -/

theorem insertByOrder_perm (x : RecordItem) (l : List RecordItem) :
    List.Perm (insertByOrder x l) (x :: l) := by
  induction l with
  | nil => simp [insertByOrder]
  | cons y ys ih =>
    by_cases h : x.order ≤ y.order
    · simp [insertByOrder, h]
    · simp only [insertByOrder, if_neg h]
      exact (ih.cons y).trans (List.Perm.swap x y ys)

theorem sortByOrder_perm (l : List RecordItem) :
    List.Perm (sortByOrder l) l := by
  induction l with
  | nil => simp [sortByOrder]
  | cons x xs ih =>
    exact (insertByOrder_perm x (sortByOrder xs)).trans (ih.cons x)

theorem insertByOrder_pairwise {x : RecordItem} {l : List RecordItem}
    (h : l.Pairwise (fun a b => a.order ≤ b.order)) :
    (insertByOrder x l).Pairwise (fun a b => a.order ≤ b.order) := by
  induction l with
  | nil => simp [insertByOrder]
  | cons y ys ih =>
    rcases List.pairwise_cons.mp h with ⟨hy, hys⟩
    by_cases hxy : x.order ≤ y.order
    · simp only [insertByOrder, if_pos hxy]
      refine List.pairwise_cons.mpr ⟨?_, h⟩
      intro b hb
      rcases List.mem_cons.mp hb with rfl | hb
      · exact hxy
      · exact le_trans hxy (hy b hb)
    · simp only [insertByOrder, if_neg hxy]
      refine List.pairwise_cons.mpr ⟨?_, ih hys⟩
      intro b hb
      rcases List.mem_cons.mp ((insertByOrder_perm x ys).mem_iff.mp hb) with rfl | hbys
      · exact le_of_lt (lt_of_not_le hxy)
      · exact hy b hbys

theorem sortByOrder_pairwise (l : List RecordItem) :
    (sortByOrder l).Pairwise (fun a b => a.order ≤ b.order) := by
  induction l with
  | nil => simp [sortByOrder]
  | cons x xs ih => exact insertByOrder_pairwise ih

theorem spliceIn_perm (n : Nat) (x : RecordItem) (l : List RecordItem) :
    List.Perm (spliceIn n x l) (x :: l) := by
  induction l generalizing n with
  | nil => simp [spliceIn]
  | cons y ys ih =>
    match n with
    | 0 => simp [spliceIn]
    | m + 1 =>
      simp only [spliceIn]
      exact ((ih m).cons y).trans (List.Perm.swap x y ys)

theorem spliceIn_length (n : Nat) (x : RecordItem) (l : List RecordItem) :
    (spliceIn n x l).length = l.length + 1 :=
  (spliceIn_perm n x l).length_eq

theorem spliceIn_get_min (n : Nat) (x : RecordItem) (l : List RecordItem) :
    (spliceIn n x l).get? (min n l.length) = some x := by
  induction l generalizing n with
  | nil => simp [spliceIn]
  | cons y ys ih =>
    match n with
    | 0 => simp [spliceIn]
    | m + 1 =>
      simp only [spliceIn, List.length_cons, Nat.succ_min_succ, List.get?_cons_succ]
      exact ih m

theorem spliceIn_filter_neg {p : RecordItem → Bool} {x : RecordItem}
    (hx : p x = false) (n : Nat) (l : List RecordItem) :
    (spliceIn n x l).filter p = l.filter p := by
  induction l generalizing n with
  | nil => simp [spliceIn, List.filter, hx]
  | cons y ys ih =>
    match n with
    | 0 => simp [spliceIn, List.filter, hx]
    | m + 1 =>
      simp only [spliceIn, List.filter]
      rw [ih m]

theorem posFind_some_id {l : List RecordItem} {i : String} {q : RecordItem × Nat}
    (h : posFind l i = some q) : q.1.id = i := by
  induction l generalizing q with
  | nil => simp [posFind] at h
  | cons r rs ih =>
    by_cases hr : r.id == i
    · simp only [posFind, if_pos hr] at h
      cases h
      exact eq_of_beq hr
    · simp only [posFind, if_neg hr, Option.map_eq_some'] at h
      rcases h with ⟨q0, hq0, rfl⟩
      have hid := ih hq0
      exact hid

theorem posFind_some_mem {l : List RecordItem} {i : String} {q : RecordItem × Nat}
    (h : posFind l i = some q) : q.1 ∈ l := by
  induction l generalizing q with
  | nil => simp [posFind] at h
  | cons r rs ih =>
    by_cases hr : r.id == i
    · simp only [posFind, if_pos hr] at h
      cases h
      exact List.mem_cons_self r rs
    · simp only [posFind, if_neg hr, Option.map_eq_some'] at h
      rcases h with ⟨q0, hq0, rfl⟩
      have hmem := ih hq0
      exact List.mem_cons_of_mem r hmem

theorem posFind_lt_length {l : List RecordItem} {i : String} {q : RecordItem × Nat}
    (h : posFind l i = some q) : q.2 < l.length := by
  induction l generalizing q with
  | nil => simp [posFind] at h
  | cons r rs ih =>
    by_cases hr : r.id == i
    · simp only [posFind, if_pos hr] at h
      cases h
      simp
    · simp only [posFind, if_neg hr, Option.map_eq_some'] at h
      rcases h with ⟨q0, hq0, rfl⟩
      have hlt := ih hq0
      simpa using Nat.succ_lt_succ hlt

theorem posFind_eq_none_iff {l : List RecordItem} {i : String} :
    posFind l i = none ↔ ∀ r ∈ l, ¬(r.id = i) := by
  induction l with
  | nil => simp [posFind]
  | cons r rs ih =>
    by_cases hr : r.id == i
    · simp only [posFind, if_pos hr]
      simp only [List.mem_cons]
      constructor
      · intro h; exact absurd h (by simp)
      · intro h; exact absurd (eq_of_beq hr) (h r (Or.inl rfl))
    · simp only [posFind, if_neg hr, Option.map_eq_none', ih, List.mem_cons]
      constructor
      · rintro h x (rfl | hx)
        · exact fun he => hr (beq_iff_eq.mpr he)
        · exact h x hx
      · intro h x hx; exact h x (Or.inr hx)

theorem posFind_isSome_of_mem {l : List RecordItem} {r : RecordItem}
    (hm : r ∈ l) (hi : r.id = i) : (posFind l i).isSome := by
  cases h : posFind l i with
  | some q => rfl
  | none => exact absurd hi (posFind_eq_none_iff.mp h r hm)

theorem idsOf_def (l : List RecordItem) : idsOf l = l.map (fun r => r.id) := rfl

theorem mem_idsOf {l : List RecordItem} {i : String} :
    i ∈ idsOf l ↔ ∃ r ∈ l, r.id = i := by
  simp [idsOf_def]

theorem posFind_eq_none_of_not_mem {l : List RecordItem} {i : String}
    (h : i ∉ idsOf l) : posFind l i = none :=
  posFind_eq_none_iff.mpr (fun r hr he => h (mem_idsOf.mpr ⟨r, hr, he⟩))

theorem eq_of_mem_of_nodup_ids {l : List RecordItem} (hnd : (idsOf l).Nodup)
    {a b : RecordItem} (ha : a ∈ l) (hb : b ∈ l) (hid : a.id = b.id) : a = b := by
  rw [idsOf_def] at hnd
  exact List.inj_on_of_nodup_map hnd ha hb hid

theorem posFind_self {l : List RecordItem} (hnd : (idsOf l).Nodup)
    {x : RecordItem} (hx : x ∈ l) :
    posFind l x.id = some (x, posIdx l x.id) := by
  cases h : posFind l x.id with
  | none => exact absurd rfl (posFind_eq_none_iff.mp h x hx)
  | some q =>
    have h1 : q.1 = x :=
      eq_of_mem_of_nodup_ids hnd (posFind_some_mem h) hx (posFind_some_id h)
    unfold posIdx
    rw [h]
    cases q
    simp only at h1
    rw [h1]

theorem setOrderById_ids (l : List RecordItem) (i : String) (o : Int) :
    idsOf (setOrderById l i o) = idsOf l := by
  induction l with
  | nil => rfl
  | cons x xs ih =>
    by_cases hx : x.id == i
    · simp [setOrderById, hx, idsOf_def]
    · simp only [setOrderById, if_neg hx, idsOf_def, List.map_cons]
      rw [idsOf_def] at ih
      rw [ih]
      rfl

theorem replaceById_ids (l : List RecordItem) (r : RecordItem) (o : Int) :
    idsOf (replaceById l r o) = idsOf l := by
  induction l with
  | nil => rfl
  | cons x xs ih =>
    by_cases hx : x.id == r.id
    · simp only [replaceById, if_pos hx, idsOf_def, List.map_cons]
      rw [show ({ r with order := o } : RecordItem).id = x.id from (eq_of_beq hx).symm]
    · simp only [replaceById, if_neg hx, idsOf_def, List.map_cons]
      rw [idsOf_def] at ih
      rw [ih]
      rfl

theorem setOrderById_eq_map {l : List RecordItem} (hnd : (idsOf l).Nodup)
    (i : String) (o : Int) :
    setOrderById l i o =
      l.map (fun x => if x.id == i then { x with order := o } else x) := by
  induction l with
  | nil => rfl
  | cons x xs ih =>
    have hhead : x.id ∉ idsOf xs := (List.nodup_cons.mp hnd).1
    have htail : (idsOf xs).Nodup := (List.nodup_cons.mp hnd).2
    by_cases hx : x.id == i
    · simp only [setOrderById, if_pos hx, List.map_cons]
      congr 1
      have h2 : ∀ y ∈ xs, (if y.id == i then ({ y with order := o } : RecordItem) else y) = y := by
        intro y hy
        have hyne : (y.id == i) = false := by
          apply beq_eq_false_iff_ne.mpr
          intro hyi
          apply hhead
          rw [eq_of_beq hx, ← hyi]
          exact mem_idsOf.mpr ⟨y, hy, rfl⟩
        rw [hyne]
        simp
      calc xs = xs.map id := (List.map_id xs).symm
        _ = xs.map (fun y => if y.id == i then { y with order := o } else y) :=
          List.map_congr_left (fun y hy => ((h2 y hy).trans rfl).symm)
    · simp only [setOrderById, if_neg hx, List.map_cons]
      congr 1
      exact ih htail

theorem replaceById_eq_map {l : List RecordItem} (hnd : (idsOf l).Nodup)
    (r : RecordItem) (o : Int) :
    replaceById l r o =
      l.map (fun x => if x.id == r.id then { r with order := o } else x) := by
  induction l with
  | nil => rfl
  | cons x xs ih =>
    have hhead : x.id ∉ idsOf xs := (List.nodup_cons.mp hnd).1
    have htail : (idsOf xs).Nodup := (List.nodup_cons.mp hnd).2
    by_cases hx : x.id == r.id
    · simp only [replaceById, if_pos hx, List.map_cons]
      congr 1
      have h2 : ∀ y ∈ xs, (if y.id == r.id then ({ r with order := o } : RecordItem) else y) = y := by
        intro y hy
        have hyne : (y.id == r.id) = false := by
          apply beq_eq_false_iff_ne.mpr
          intro hyi
          apply hhead
          rw [eq_of_beq hx, ← hyi]
          exact mem_idsOf.mpr ⟨y, hy, rfl⟩
        rw [hyne]
        simp
      calc xs = xs.map id := (List.map_id xs).symm
        _ = xs.map (fun y => if y.id == r.id then { r with order := o } else y) :=
          List.map_congr_left (fun y hy => ((h2 y hy).trans rfl).symm)
    · simp only [replaceById, if_neg hx, List.map_cons]
      congr 1
      exact ih htail

theorem applyOrders1_eq_map {g : List RecordItem} :
    ∀ {l : List RecordItem} {k : Nat}, (idsOf l).Nodup → (idsOf g).Nodup →
    applyOrders1 l g k = l.map (fun x =>
      match posFind g x.id with
      | some q => { x with order := Int.ofNat (k + q.2) }
      | none => x) := by
  induction g with
  | nil =>
    intro l k _ _
    simp only [applyOrders1, posFind]
    exact (List.map_id l).symm
  | cons r rs ih =>
    intro l k hndl hndg
    have hhead : r.id ∉ idsOf rs := (List.nodup_cons.mp hndg).1
    have htail : (idsOf rs).Nodup := (List.nodup_cons.mp hndg).2
    have hndl2 : (idsOf (setOrderById l r.id (Int.ofNat k))).Nodup := by
      rw [setOrderById_ids]; exact hndl
    show applyOrders1 (setOrderById l r.id (Int.ofNat k)) rs (k + 1) = _
    rw [ih hndl2 htail, setOrderById_eq_map hndl, List.map_map]
    apply List.map_congr_left
    intro x _
    by_cases hx : x.id == r.id
    · have hnone : posFind rs x.id = none := by
        apply posFind_eq_none_of_not_mem
        rw [eq_of_beq hx]
        exact hhead
      have hpos : posFind (r :: rs) x.id = some (r, 0) := by
        simp only [posFind]
        rw [if_pos (by rw [eq_of_beq hx]; exact beq_self_eq_true r.id)]
      simp only [Function.comp, if_pos hx, hpos]
      simp [hnone]
    · have hne : (x.id == r.id) = false := by simpa using hx
      have hpos : posFind (r :: rs) x.id = (posFind rs x.id).map (fun q => (q.1, q.2 + 1)) := by
        simp only [posFind]
        rw [if_neg (by intro hb; exact hx (by rw [eq_of_beq hb]; exact beq_self_eq_true x.id))]
      simp only [Function.comp, hne, if_neg (by simp [hne] : ¬((x.id == r.id) = true)), hpos]
      cases hq : posFind rs x.id with
      | none => simp [hq]
      | some q =>
        simp [hq]
        omega

theorem applyOrders2_eq_map {g : List RecordItem} :
    ∀ {l : List RecordItem} {k : Nat}, (idsOf l).Nodup → (idsOf g).Nodup →
    applyOrders2 l g k = l.map (fun x =>
      match posFind g x.id with
      | some q => { q.1 with order := Int.ofNat (k + q.2) }
      | none => x) := by
  induction g with
  | nil =>
    intro l k _ _
    simp only [applyOrders2, posFind]
    exact (List.map_id l).symm
  | cons r rs ih =>
    intro l k hndl hndg
    have hhead : r.id ∉ idsOf rs := (List.nodup_cons.mp hndg).1
    have htail : (idsOf rs).Nodup := (List.nodup_cons.mp hndg).2
    have hndl2 : (idsOf (replaceById l r (Int.ofNat k))).Nodup := by
      rw [replaceById_ids]; exact hndl
    show applyOrders2 (replaceById l r (Int.ofNat k)) rs (k + 1) = _
    rw [ih hndl2 htail, replaceById_eq_map hndl, List.map_map]
    apply List.map_congr_left
    intro x _
    by_cases hx : x.id == r.id
    · have hnone : posFind rs r.id = none := posFind_eq_none_of_not_mem hhead
      have hpos : posFind (r :: rs) r.id = some (r, 0) := by
        simp only [posFind]
        rw [if_pos (beq_self_eq_true r.id)]
      simp [Function.comp, if_pos hx, hpos, hnone, eq_of_beq hx]
    · have hne : (x.id == r.id) = false := by simpa using hx
      have hpos : posFind (r :: rs) x.id = (posFind rs x.id).map (fun q => (q.1, q.2 + 1)) := by
        simp only [posFind]
        rw [if_neg (by intro hb; exact hx (by rw [eq_of_beq hb]; exact beq_self_eq_true x.id))]
      simp only [Function.comp, hne, if_neg (by simp [hne] : ¬((x.id == r.id) = true)), hpos]
      cases hq : posFind rs x.id with
      | none => simp [hq]
      | some q =>
        simp [hq]
        omega

theorem posIdx_cons_self (r : RecordItem) (rs : List RecordItem) :
    posIdx (r :: rs) r.id = 0 := by
  unfold posIdx posFind
  rw [if_pos (beq_self_eq_true r.id)]

theorem map_posIdx_self {g : List RecordItem} (hnd : (idsOf g).Nodup) :
    g.map (fun x => posIdx g x.id) = List.range g.length := by
  induction g with
  | nil => rfl
  | cons r rs ih =>
    have hhead : r.id ∉ idsOf rs := (List.nodup_cons.mp hnd).1
    have htail : (idsOf rs).Nodup := (List.nodup_cons.mp hnd).2
    simp only [List.map_cons, List.length_cons, List.range_succ_eq_map]
    have h1 : ∀ x ∈ rs, posIdx (r :: rs) x.id = posIdx rs x.id + 1 := by
      intro x hx
      have hne : (r.id == x.id) = false := by
        apply beq_eq_false_iff_ne.mpr
        intro he
        exact hhead (he ▸ mem_idsOf.mpr ⟨x, hx, rfl⟩)
      cases hq : posFind rs x.id with
      | none => exact absurd rfl (posFind_eq_none_iff.mp hq x hx)
      | some q =>
        unfold posIdx
        have hstep : posFind (r :: rs) x.id = some (q.1, q.2 + 1) := by
          simp [posFind, hne, hq]
        rw [hstep, hq]
    rw [List.map_congr_left h1, posIdx_cons_self]
    congr 1
    have h3 : rs.map (fun x => posIdx rs x.id + 1) =
        (rs.map (fun x => posIdx rs x.id)).map (fun n => n + 1) := by
      rw [List.map_map]
      rfl
    rw [h3, ih htail]

theorem map_posIdx_perm {l g : List RecordItem} (hnd : (idsOf g).Nodup)
    (hperm : List.Perm (idsOf l) (idsOf g)) :
    List.Perm (l.map (fun x => posIdx g x.id)) (List.range g.length) := by
  have h1 : l.map (fun x => posIdx g x.id) = (idsOf l).map (posIdx g) := by
    rw [idsOf_def, List.map_map]
    rfl
  have h2 : (idsOf g).map (posIdx g) = List.range g.length := by
    have h3 : g.map (fun x => posIdx g x.id) = (idsOf g).map (posIdx g) := by
      rw [idsOf_def, List.map_map]
      rfl
    rw [← h3, map_posIdx_self hnd]
  rw [h1, ← h2]
  exact hperm.map (posIdx g)

theorem reindexFrom_ids (k : Nat) (g : List RecordItem) :
    idsOf (reindexFrom k g) = idsOf g := by
  induction g generalizing k with
  | nil => rfl
  | cons r rs ih =>
    show r.id :: idsOf (reindexFrom (k + 1) rs) = r.id :: idsOf rs
    rw [ih (k + 1)]

theorem reindexFrom_length (k : Nat) (g : List RecordItem) :
    (reindexFrom k g).length = g.length := by
  induction g generalizing k with
  | nil => rfl
  | cons r rs ih =>
    simp only [reindexFrom, List.length_cons]
    rw [ih (k + 1)]

theorem reindexFrom_orders (k : Nat) (g : List RecordItem) :
    (reindexFrom k g).map (fun r => r.order) =
      (List.range g.length).map (fun j => Int.ofNat (k + j)) := by
  induction g generalizing k with
  | nil => rfl
  | cons r rs ih =>
    simp only [reindexFrom, List.map_cons, List.length_cons, List.range_succ_eq_map]
    rw [ih (k + 1)]
    simp only [List.map_cons, List.map_map]
    congr 1
    apply List.map_congr_left
    intro j _
    simp only [Function.comp]
    congr 1
    omega

theorem reindexFrom_mem_le {m : Nat} {g : List RecordItem} {b : RecordItem}
    (hb : b ∈ reindexFrom m g) : Int.ofNat m ≤ b.order := by
  induction g generalizing m with
  | nil => simp [reindexFrom] at hb
  | cons r rs ih =>
    simp only [reindexFrom, List.mem_cons] at hb
    rcases hb with rfl | hb
    · simp
    · have h1 := ih hb
      exact le_trans (Int.ofNat_le.mpr (Nat.le_succ m)) h1

theorem reindexFrom_sorted (k : Nat) (g : List RecordItem) :
    (reindexFrom k g).Pairwise (fun a b => a.order < b.order) := by
  induction g generalizing k with
  | nil => simp [reindexFrom]
  | cons r rs ih =>
    simp only [reindexFrom]
    refine List.pairwise_cons.mpr ⟨?_, ih (k + 1)⟩
    intro b hb
    have h1 := reindexFrom_mem_le hb
    simp only
    exact lt_of_lt_of_le (Int.ofNat_lt.mpr (Nat.lt_succ_self k)) h1

theorem reindexFrom_get? (k : Nat) (g : List RecordItem) (j : Nat) :
    (reindexFrom k g).get? j =
      (g.get? j).map (fun r => { r with order := Int.ofNat (k + j) }) := by
  induction g generalizing k j with
  | nil => simp [reindexFrom]
  | cons r rs ih =>
    cases j with
    | zero => simp [reindexFrom]
    | succ m =>
      simp only [reindexFrom, List.get?_cons_succ, ih (k + 1) m]
      cases rs.get? m with
      | none => rfl
      | some y =>
        simp only [Option.map_some']
        rw [show k + (m + 1) = k + 1 + m from by omega]

theorem filter_reindexFrom_ids (p : String → Bool) (k : Nat) (g : List RecordItem) :
    idsOf ((reindexFrom k g).filter (fun r => p r.id)) =
      idsOf (g.filter (fun r => p r.id)) := by
  induction g generalizing k with
  | nil => rfl
  | cons r rs ih =>
    simp only [reindexFrom, List.filter]
    cases hp : p r.id with
    | false => exact ih (k + 1)
    | true =>
      simp only [idsOf_def, List.map_cons]
      have h4 := ih (k + 1)
      rw [idsOf_def, idsOf_def] at h4
      rw [h4]

theorem pairwise_lt_of_le_nodup {l : List RecordItem}
    (hle : l.Pairwise (fun a b => a.order ≤ b.order))
    (hnd : (l.map (fun r => r.order)).Nodup) :
    l.Pairwise (fun a b => a.order < b.order) := by
  have hne : l.Pairwise (fun a b => a.order ≠ b.order) := List.pairwise_map.mp hnd
  exact (hle.and hne).imp (fun h => lt_of_le_of_ne h.1 h.2)

theorem sort_eq_of_perm_strict {l m : List RecordItem}
    (hperm : List.Perm l m)
    (hsorted : m.Pairwise (fun a b => a.order < b.order)) :
    sortByOrder l = m := by
  haveI : IsAntisymm RecordItem (fun a b => a.order < b.order) :=
    ⟨fun a b h1 h2 => absurd h2 (not_lt.mpr (le_of_lt h1))⟩
  have hp : List.Perm (sortByOrder l) m := (sortByOrder_perm l).trans hperm
  apply List.eq_of_perm_of_sorted hp ?_ hsorted
  apply pairwise_lt_of_le_nodup (sortByOrder_pairwise l)
  have h2 : (m.map (fun r => r.order)).Nodup :=
    List.pairwise_map.mpr (hsorted.imp (fun h => ne_of_lt h))
  exact ((hp.map (fun r => r.order)).nodup_iff).mpr h2

theorem idsOf_length (l : List RecordItem) : (idsOf l).length = l.length :=
  List.length_map l (fun r => r.id)

theorem posFind_eraseIdx_filter {l : List RecordItem} {i : String}
    (hnd : (idsOf l).Nodup) {q : RecordItem × Nat} (h : posFind l i = some q) :
    l.eraseIdx q.2 = l.filter (fun r => r.id != i) := by
  induction l generalizing q with
  | nil => simp [posFind] at h
  | cons r rs ih =>
    have hhead : r.id ∉ idsOf rs := (List.nodup_cons.mp hnd).1
    have htail : (idsOf rs).Nodup := (List.nodup_cons.mp hnd).2
    by_cases hr : r.id == i
    · simp only [posFind, if_pos hr] at h
      cases h
      simp only [List.eraseIdx, List.filter]
      rw [show (r.id != i) = false by simp [eq_of_beq hr]]
      symm
      apply List.filter_eq_self.mpr
      intro x hx
      simp only [bne_iff_ne, ne_eq, decide_eq_true_eq]
      intro he
      exact hhead (by rw [eq_of_beq hr, ← he]; exact mem_idsOf.mpr ⟨x, hx, rfl⟩)
    · simp only [posFind, if_neg hr, Option.map_eq_some'] at h
      rcases h with ⟨q0, hq0, rfl⟩
      have hstep := ih htail hq0
      simp only [List.eraseIdx, List.filter]
      rw [show (r.id != i) = true by simpa using hr]
      rw [hstep]

theorem perm_cons_eraseIdx {l : List RecordItem} {i : String}
    {q : RecordItem × Nat} (h : posFind l i = some q) :
    List.Perm l (q.1 :: l.eraseIdx q.2) := by
  induction l generalizing q with
  | nil => simp [posFind] at h
  | cons r rs ih =>
    by_cases hr : r.id == i
    · simp only [posFind, if_pos hr] at h
      cases h
      simp [List.eraseIdx]
    · simp only [posFind, if_neg hr, Option.map_eq_some'] at h
      rcases h with ⟨q0, hq0, rfl⟩
      have hstep := ih hq0
      simp only [List.eraseIdx]
      exact (hstep.cons r).trans (List.Perm.swap q0.1 r (rs.eraseIdx q0.2))

theorem keepOrd_id (g : List RecordItem) (x : RecordItem) :
    (keepOrd g x).id = x.id := by
  unfold keepOrd
  cases posFind g x.id <;> rfl

theorem lookupOrd_id (g : List RecordItem) (x : RecordItem) :
    (lookupOrd g x).id = x.id := by
  unfold lookupOrd
  cases h : posFind g x.id with
  | none => rfl
  | some q => exact posFind_some_id h

theorem keepOrd_fields (g : List RecordItem) (x : RecordItem) :
    (keepOrd g x).projectId = x.projectId ∧ (keepOrd g x).categoryId = x.categoryId ∧
    (keepOrd g x).title = x.title ∧ (keepOrd g x).content = x.content ∧
    (keepOrd g x).type = x.type ∧ (keepOrd g x).date = x.date ∧
    (keepOrd g x).createdAt = x.createdAt := by
  unfold keepOrd
  cases posFind g x.id <;> exact ⟨rfl, rfl, rfl, rfl, rfl, rfl, rfl⟩

theorem keepOrd_of_none {g : List RecordItem} {x : RecordItem}
    (h : posFind g x.id = none) : keepOrd g x = x := by
  unfold keepOrd
  rw [h]

theorem lookupOrd_of_none {g : List RecordItem} {x : RecordItem}
    (h : posFind g x.id = none) : lookupOrd g x = x := by
  unfold lookupOrd
  rw [h]

theorem lookupOrd_eq_keepOrd {U g : List RecordItem} (hnd : (idsOf U).Nodup)
    (hsub : ∀ y ∈ g, y ∈ U) {x : RecordItem} (hx : x ∈ U) :
    lookupOrd g x = keepOrd g x := by
  unfold lookupOrd keepOrd
  cases h : posFind g x.id with
  | none => rfl
  | some q =>
    obtain ⟨y, j⟩ := q
    have h1 : y = x :=
      eq_of_mem_of_nodup_ids hnd (hsub y (posFind_some_mem h)) hx (posFind_some_id h)
    subst h1
    rfl

theorem reindexFrom_bump (k : Nat) (g : List RecordItem) :
    (reindexFrom k g).map (fun y => { y with order := y.order + 1 }) =
      reindexFrom (k + 1) g := by
  induction g generalizing k with
  | nil => rfl
  | cons r rs ih =>
    simp only [reindexFrom, List.map_cons]
    rw [ih (k + 1)]
    congr 1

theorem map_lookupOrd_self {g : List RecordItem} (hnd : (idsOf g).Nodup) :
    g.map (lookupOrd g) = reindexFrom 0 g := by
  induction g with
  | nil => rfl
  | cons r rs ih =>
    have hhead : r.id ∉ idsOf rs := (List.nodup_cons.mp hnd).1
    have htail : (idsOf rs).Nodup := (List.nodup_cons.mp hnd).2
    have htails : rs.map (lookupOrd (r :: rs)) =
        (rs.map (lookupOrd rs)).map (fun y => { y with order := y.order + 1 }) := by
      rw [List.map_map]
      apply List.map_congr_left
      intro x hx
      have hne : (r.id == x.id) = false := by
        apply beq_eq_false_iff_ne.mpr
        intro he
        exact hhead (he ▸ mem_idsOf.mpr ⟨x, hx, rfl⟩)
      cases hq : posFind rs x.id with
      | none => exact absurd rfl (posFind_eq_none_iff.mp hq x hx)
      | some q =>
        unfold lookupOrd
        have hstep : posFind (r :: rs) x.id = some (q.1, q.2 + 1) := by
          simp [posFind, hne, hq]
        simp only [Function.comp, hstep, hq]
        congr 1
    simp only [List.map_cons]
    rw [htails, ih htail, reindexFrom_bump]
    show lookupOrd (r :: rs) r :: reindexFrom (0 + 1) rs = reindexFrom 0 (r :: rs)
    have hhd : lookupOrd (r :: rs) r = { r with order := Int.ofNat 0 } := by
      unfold lookupOrd
      rw [show posFind (r :: rs) r.id = some (r, 0) from by simp [posFind]]
    rw [hhd]
    rfl

theorem idsOf_perm {l₁ l₂ : List RecordItem} (h : List.Perm l₁ l₂) :
    List.Perm (idsOf l₁) (idsOf l₂) := by
  rw [idsOf_def, idsOf_def]
  exact h.map (fun r => r.id)

theorem idsOf_append (l₁ l₂ : List RecordItem) :
    idsOf (l₁ ++ l₂) = idsOf l₁ ++ idsOf l₂ := by
  rw [idsOf_def, idsOf_def, idsOf_def]
  exact List.map_append (fun r => r.id) l₁ l₂

theorem perm_map_lookupOrd {L g : List RecordItem} (hnd : (idsOf g).Nodup)
    (hperm : List.Perm (idsOf L) (idsOf g)) :
    List.Perm (L.map (lookupOrd g)) (reindexFrom 0 g) := by
  have hFsome : ∀ x ∈ L, (posFind g x.id).isSome = true := by
    intro x hx
    have hmem : x.id ∈ idsOf g := hperm.mem_iff.mp (mem_idsOf.mpr ⟨x, hx, rfl⟩)
    rcases mem_idsOf.mp hmem with ⟨r, hr, hid⟩
    exact posFind_isSome_of_mem hr hid
  have hGsome : ∀ x ∈ g, (posFind g x.id).isSome = true := by
    intro x hx
    exact posFind_isSome_of_mem hx rfl
  have h1 : L.map (lookupOrd g) = (idsOf L).map (fun i =>
      match posFind g i with
      | some q => { q.1 with order := Int.ofNat q.2 }
      | none => mkRec "" "" "" 0) := by
    rw [idsOf_def, List.map_map]
    apply List.map_congr_left
    intro x hx
    cases hq : posFind g x.id with
    | none => exact absurd (hFsome x hx) (by simp [hq])
    | some q =>
      unfold lookupOrd
      simp [Function.comp, hq]
  have h2 : g.map (lookupOrd g) = (idsOf g).map (fun i =>
      match posFind g i with
      | some q => { q.1 with order := Int.ofNat q.2 }
      | none => mkRec "" "" "" 0) := by
    rw [idsOf_def, List.map_map]
    apply List.map_congr_left
    intro x hx
    cases hq : posFind g x.id with
    | none => exact absurd (hGsome x hx) (by simp [hq])
    | some q =>
      unfold lookupOrd
      simp [Function.comp, hq]
  rw [h1, ← map_lookupOrd_self hnd, h2]
  exact hperm.map _

theorem sorted_map_lookupOrd {L g : List RecordItem} (hnd : (idsOf g).Nodup)
    (hperm : List.Perm (idsOf L) (idsOf g)) :
    sortByOrder (L.map (lookupOrd g)) = reindexFrom 0 g :=
  sort_eq_of_perm_strict (perm_map_lookupOrd hnd hperm) (reindexFrom_sorted 0 g)

theorem orders_map_lookupOrd {L g : List RecordItem} (hnd : (idsOf g).Nodup)
    (hperm : List.Perm (idsOf L) (idsOf g)) :
    List.Perm ((L.map (lookupOrd g)).map (fun r => r.order))
      ((List.range g.length).map Int.ofNat) := by
  have h := (perm_map_lookupOrd hnd hperm).map (fun r => r.order)
  rw [reindexFrom_orders] at h
  have h3 : (List.range g.length).map (fun j => Int.ofNat (0 + j)) =
      (List.range g.length).map Int.ofNat := by
    apply List.map_congr_left
    intro j _
    simp
  rw [h3] at h
  exact h

theorem filter_or_perm {l : List RecordItem} {a b : RecordItem → Bool}
    (hdisj : ∀ x ∈ l, ¬(a x = true ∧ b x = true)) :
    List.Perm (l.filter (fun x => a x || b x)) (l.filter a ++ l.filter b) := by
  induction l with
  | nil => simp
  | cons x xs ih =>
    have hdisj2 : ∀ y ∈ xs, ¬(a y = true ∧ b y = true) :=
      fun y hy => hdisj y (List.mem_cons_of_mem x hy)
    have ih2 := ih hdisj2
    cases ha : a x with
    | true =>
      have hb : b x = false := by
        cases hbv : b x with
        | false => rfl
        | true => exact absurd ⟨ha, hbv⟩ (hdisj x (List.mem_cons_self x xs))
      simp only [List.filter_cons, ha, hb, Bool.true_or, if_pos]
      exact ih2.cons x
    | false =>
      cases hb : b x with
      | true =>
        simp only [List.filter_cons, ha, hb, Bool.false_or, if_pos, if_neg]
        simp only [Bool.false_eq_true, if_false]
        exact (ih2.cons x).trans List.perm_middle.symm
      | false =>
        simp only [List.filter_cons, ha, hb, Bool.false_or, Bool.false_eq_true, if_false]
        exact ih2

theorem filter_eq_singleton {l : List RecordItem} (hnd : (idsOf l).Nodup)
    {r : RecordItem} (hr : r ∈ l) :
    l.filter (fun x => x.id == r.id) = [r] := by
  induction l with
  | nil => simp at hr
  | cons x xs ih =>
    have hhead : x.id ∉ idsOf xs := (List.nodup_cons.mp hnd).1
    have htail : (idsOf xs).Nodup := (List.nodup_cons.mp hnd).2
    rcases List.mem_cons.mp hr with rfl | hr2
    · rw [List.filter_cons, if_pos (beq_self_eq_true r.id)]
      have hnil : List.filter (fun y => y.id == r.id) xs = [] := by
        apply List.filter_eq_nil_iff.mpr
        intro y hy
        simp only [beq_iff_eq]
        intro he
        exact hhead (he ▸ mem_idsOf.mpr ⟨y, hy, rfl⟩)
      rw [hnil]
    · have hxne : (x.id == r.id) = false := by
        apply beq_eq_false_iff_ne.mpr
        intro he
        exact hhead (he ▸ mem_idsOf.mpr ⟨r, hr2, rfl⟩)
      rw [List.filter_cons, if_neg (by simp [hxne])]
      exact ih htail hr2

theorem nodup_ids_sort_filter {recs : List RecordItem} (hnd : (idsOf recs).Nodup)
    (p : RecordItem → Bool) :
    (idsOf (sortByOrder (recs.filter p))).Nodup := by
  have h1 : List.Perm (idsOf (sortByOrder (recs.filter p))) (idsOf (recs.filter p)) :=
    idsOf_perm (sortByOrder_perm _)
  have h2 : (idsOf (recs.filter p)).Sublist (idsOf recs) := by
    rw [idsOf_def, idsOf_def]
    exact (List.filter_sublist recs).map _
  exact h1.nodup_iff.mpr (List.Nodup.sublist h2 hnd)

theorem mem_sort_filter_sub {recs : List RecordItem} {p : RecordItem → Bool}
    {y : RecordItem} (hy : y ∈ sortByOrder (recs.filter p)) : y ∈ recs :=
  List.mem_of_mem_filter ((sortByOrder_perm _).mem_iff.mp hy)

theorem mem_spliceIn {n : Nat} {x y : RecordItem} {l : List RecordItem} :
    y ∈ spliceIn n x l ↔ y = x ∨ y ∈ l := by
  rw [(spliceIn_perm n x l).mem_iff]
  exact List.mem_cons

theorem mem_eraseIdx_sub {l : List RecordItem} {i : Nat} {y : RecordItem}
    (hy : y ∈ l.eraseIdx i) : y ∈ l :=
  (List.eraseIdx_sublist l i).mem hy

/-- Same-category branch of `moveRecord`, with the found record `record`
and its position `q` inside the sorted category group: the final record
list is the original one with each group member given its position in the
spliced group as its order. -/
theorem moveRecordAux_same {recs : List RecordItem} {rid cn : String} {n : Nat}
    (hnd : (idsOf recs).Nodup)
    {record : RecordItem} (hf : recs.find? (fun r => r.id == rid) = some record)
    (hsame : record.categoryId = cn)
    {q : RecordItem × Nat}
    (hq : posFind (sortByOrder (recs.filter
        (fun r => r.categoryId == record.categoryId && r.projectId == record.projectId))) rid = some q) :
    moveRecordAux recs rid cn n =
      recs.map (keepOrd (spliceIn n q.1
        ((sortByOrder (recs.filter
          (fun r => r.categoryId == record.categoryId && r.projectId == record.projectId))).eraseIdx q.2))) := by
  have hndspl : (idsOf (spliceIn n q.1
      ((sortByOrder (recs.filter
        (fun r => r.categoryId == record.categoryId && r.projectId == record.projectId))).eraseIdx q.2))).Nodup := by
    have hg := nodup_ids_sort_filter hnd
      (fun r => r.categoryId == record.categoryId && r.projectId == record.projectId)
    have h1 := idsOf_perm (spliceIn_perm n q.1
      ((sortByOrder (recs.filter
        (fun r => r.categoryId == record.categoryId && r.projectId == record.projectId))).eraseIdx q.2))
    have h2 := idsOf_perm (perm_cons_eraseIdx hq)
    exact (h1.trans h2.symm).nodup_iff.mpr hg
  unfold moveRecordAux
  rw [hf]
  simp only [show (record.categoryId == cn) = true from beq_iff_eq.mpr hsame, if_true, hq]
  rw [applyOrders1_eq_map hnd hndspl]
  apply List.map_congr_left
  intro x _
  unfold keepOrd
  cases hp : posFind (spliceIn n q.1
      ((sortByOrder (recs.filter
        (fun r => r.categoryId == record.categoryId && r.projectId == record.projectId))).eraseIdx q.2)) x.id with
  | none => rfl
  | some q2 => simp

theorem keepOrd_eq_self_of_not_group {recs : List RecordItem} (hnd : (idsOf recs).Nodup)
    {p : RecordItem → Bool} {x : RecordItem} (hx : x ∈ recs) (hpx : p x = false) :
    keepOrd (sortByOrder (recs.filter p)) x = x := by
  apply keepOrd_of_none
  apply posFind_eq_none_of_not_mem
  intro hmem
  rcases mem_idsOf.mp hmem with ⟨y, hy, hyid⟩
  have hyr : y ∈ recs := mem_sort_filter_sub hy
  have hyx : y = x := eq_of_mem_of_nodup_ids hnd hyr hx hyid
  subst hyx
  have hpy := List.of_mem_filter ((sortByOrder_perm _).mem_iff.mp hy)
  rw [hpx] at hpy
  exact absurd hpy (by simp)

theorem lookupOrd_eq_self_of_not_mem_ids {g : List RecordItem} {x : RecordItem}
    (h : x.id ∉ idsOf g) : lookupOrd g x = x :=
  lookupOrd_of_none (posFind_eq_none_of_not_mem h)

theorem idsOf_map_keepOrd (recs g : List RecordItem) :
    idsOf (recs.map (keepOrd g)) = idsOf recs := by
  rw [idsOf_def, idsOf_def, List.map_map]
  apply List.map_congr_left
  intro x _
  exact keepOrd_id g x

theorem find?_id_eq_some_iff {recs : List RecordItem} (hnd : (idsOf recs).Nodup)
    {rid : String} {record : RecordItem} :
    recs.find? (fun r => r.id == rid) = some record →
      record ∈ recs ∧ record.id = rid := by
  intro hf
  exact ⟨List.mem_of_find?_eq_some hf, by simpa using List.find?_some hf⟩

/-- In the cross-category branch, the destination-category filter is
unaffected by the reindexing of the source category. -/
theorem cross_filter_stable {recs : List RecordItem} {rid cn : String}
    (hnd : (idsOf recs).Nodup)
    {record : RecordItem} (hf : recs.find? (fun r => r.id == rid) = some record)
    (hdiff : ¬(record.categoryId = cn)) :
    (recs.map (keepOrd (sortByOrder (recs.filter
        (fun r => r.categoryId == record.categoryId && r.projectId == record.projectId && r.id != rid))))).filter
      (fun r => r.categoryId == cn && r.projectId == record.projectId) =
    recs.filter (fun r => r.categoryId == cn && r.projectId == record.projectId) := by
  rw [List.filter_map]
  have hcond : ∀ x ∈ recs,
      ((fun r => r.categoryId == cn && r.projectId == record.projectId) ∘
        (keepOrd (sortByOrder (recs.filter
          (fun r => r.categoryId == record.categoryId && r.projectId == record.projectId && r.id != rid))))) x =
      (fun r => r.categoryId == cn && r.projectId == record.projectId) x := by
    intro x _
    have hfields := keepOrd_fields (sortByOrder (recs.filter
      (fun r => r.categoryId == record.categoryId && r.projectId == record.projectId && r.id != rid))) x
    simp only [Function.comp, hfields.1, hfields.2.1]
  rw [List.filter_congr hcond]
  have hid : ∀ x ∈ recs.filter (fun r => r.categoryId == cn && r.projectId == record.projectId),
      keepOrd (sortByOrder (recs.filter
        (fun r => r.categoryId == record.categoryId && r.projectId == record.projectId && r.id != rid))) x = x := by
    intro x hx
    have hxr : x ∈ recs := List.mem_of_mem_filter hx
    have hpx := List.of_mem_filter hx
    apply keepOrd_eq_self_of_not_group hnd hxr
    simp only [Bool.and_eq_true, beq_iff_eq] at hpx
    have h1 : (x.categoryId == record.categoryId) = false := by
      apply beq_eq_false_iff_ne.mpr
      intro he
      exact hdiff (by rw [← he, hpx.1])
    simp [h1]
  calc (recs.filter (fun r => r.categoryId == cn && r.projectId == record.projectId)).map
        (keepOrd (sortByOrder (recs.filter
          (fun r => r.categoryId == record.categoryId && r.projectId == record.projectId && r.id != rid))))
      = (recs.filter (fun r => r.categoryId == cn && r.projectId == record.projectId)).map id :=
        List.map_congr_left (fun x hx => (hid x hx).trans rfl)
    _ = recs.filter (fun r => r.categoryId == cn && r.projectId == record.projectId) :=
        List.map_id _

/-- Cross-category branch of `moveRecord`: the final record list maps each
original record through the source-category reindexing (`keepOrd` of the
sorted source group) followed by the destination-category reindexing
(`lookupOrd` of the spliced destination group). -/
theorem moveRecordAux_cross {recs : List RecordItem} {rid cn : String} {n : Nat}
    (hnd : (idsOf recs).Nodup)
    {record : RecordItem} (hf : recs.find? (fun r => r.id == rid) = some record)
    (hdiff : ¬(record.categoryId = cn)) :
    moveRecordAux recs rid cn n =
      recs.map (fun x => lookupOrd
        (spliceIn n { record with categoryId := cn }
          (sortByOrder (recs.filter (fun r => r.categoryId == cn && r.projectId == record.projectId))))
        (keepOrd (sortByOrder (recs.filter
          (fun r => r.categoryId == record.categoryId && r.projectId == record.projectId && r.id != rid))) x)) := by
  have hrecmem : record ∈ recs := List.mem_of_find?_eq_some hf
  have hrid : record.id = rid := by simpa using List.find?_some hf
  have hndg : (idsOf (sortByOrder (recs.filter
      (fun r => r.categoryId == record.categoryId && r.projectId == record.projectId && r.id != rid)))).Nodup :=
    nodup_ids_sort_filter hnd _
  have hndnew : (idsOf (sortByOrder (recs.filter
      (fun r => r.categoryId == cn && r.projectId == record.projectId)))).Nodup :=
    nodup_ids_sort_filter hnd _
  have hridnot : record.id ∉ idsOf (sortByOrder (recs.filter
      (fun r => r.categoryId == cn && r.projectId == record.projectId))) := by
    intro hmem
    rcases mem_idsOf.mp hmem with ⟨y, hy, hyid⟩
    have hyr : y ∈ recs := mem_sort_filter_sub hy
    have hyrec : y = record := eq_of_mem_of_nodup_ids hnd hyr hrecmem hyid
    subst hyrec
    have hpy := List.of_mem_filter ((sortByOrder_perm _).mem_iff.mp hy)
    simp only [Bool.and_eq_true, beq_iff_eq] at hpy
    exact hdiff hpy.1
  have hndspl : (idsOf (spliceIn n { record with categoryId := cn }
      (sortByOrder (recs.filter (fun r => r.categoryId == cn && r.projectId == record.projectId))))).Nodup := by
    have h1 := idsOf_perm (spliceIn_perm n ({ record with categoryId := cn })
      (sortByOrder (recs.filter (fun r => r.categoryId == cn && r.projectId == record.projectId))))
    apply h1.nodup_iff.mpr
    exact List.nodup_cons.mpr ⟨hridnot, hndnew⟩
  unfold moveRecordAux
  rw [hf]
  simp only [show (record.categoryId == cn) = false from beq_eq_false_iff_ne.mpr hdiff,
    Bool.false_eq_true, if_false]
  have hstep1 : applyOrders1 recs (sortByOrder (recs.filter
      (fun r => r.categoryId == record.categoryId && r.projectId == record.projectId && r.id != rid))) 0 =
      recs.map (keepOrd (sortByOrder (recs.filter
        (fun r => r.categoryId == record.categoryId && r.projectId == record.projectId && r.id != rid)))) := by
    rw [applyOrders1_eq_map hnd hndg]
    apply List.map_congr_left
    intro x _
    unfold keepOrd
    cases hp : posFind (sortByOrder (recs.filter
        (fun r => r.categoryId == record.categoryId && r.projectId == record.projectId && r.id != rid))) x.id with
    | none => rfl
    | some q2 => simp
  rw [hstep1]
  rw [cross_filter_stable hnd hf hdiff]
  rw [applyOrders2_eq_map (by rw [idsOf_map_keepOrd]; exact hnd) hndspl]
  rw [List.map_map]
  apply List.map_congr_left
  intro x _
  simp only [Function.comp]
  unfold lookupOrd
  cases hp : posFind (spliceIn n { record with categoryId := cn }
      (sortByOrder (recs.filter (fun r => r.categoryId == cn && r.projectId == record.projectId))))
      (keepOrd (sortByOrder (recs.filter
        (fun r => r.categoryId == record.categoryId && r.projectId == record.projectId && r.id != rid))) x).id with
  | none => rfl
  | some q2 => simp

theorem posFind_spliceIn_self {x : RecordItem} {l : List RecordItem}
    (h : x.id ∉ idsOf l) (n : Nat) :
    posFind (spliceIn n x l) x.id = some (x, min n l.length) := by
  induction l generalizing n with
  | nil => simp [spliceIn, posFind]
  | cons y ys ih =>
    have hyne : (y.id == x.id) = false := by
      apply beq_eq_false_iff_ne.mpr
      intro he
      exact h (by rw [← he]; exact mem_idsOf.mpr ⟨y, List.mem_cons_self y ys, rfl⟩)
    have h2 : x.id ∉ idsOf ys := by
      intro hm
      rcases mem_idsOf.mp hm with ⟨z, hz, hzid⟩
      exact h (mem_idsOf.mpr ⟨z, List.mem_cons_of_mem y hz, hzid⟩)
    match n with
    | 0 => simp [spliceIn, posFind]
    | m + 1 =>
      show posFind (y :: spliceIn m x ys) x.id = _
      simp only [posFind, hyne, Bool.false_eq_true, if_false, ih h2 m, Option.map_some']
      simp [Nat.succ_min_succ]

theorem not_mem_ids_sort_filter {recs : List RecordItem} (hnd : (idsOf recs).Nodup)
    {p : RecordItem → Bool} {x : RecordItem} (hx : x ∈ recs) (hpx : p x = false) :
    x.id ∉ idsOf (sortByOrder (recs.filter p)) := by
  intro hmem
  rcases mem_idsOf.mp hmem with ⟨y, hy, hyid⟩
  have hyr : y ∈ recs := mem_sort_filter_sub hy
  have hyx : y = x := eq_of_mem_of_nodup_ids hnd hyr hx hyid
  subst hyx
  have hpy := List.of_mem_filter ((sortByOrder_perm _).mem_iff.mp hy)
  rw [hpx] at hpy
  exact absurd hpy (by simp)

theorem mem_ids_spliceIn {i : String} {n : Nat} {x : RecordItem} {l : List RecordItem} :
    i ∈ idsOf (spliceIn n x l) ↔ i = x.id ∨ i ∈ idsOf l := by
  rw [(idsOf_perm (spliceIn_perm n x l)).mem_iff]
  show i ∈ x.id :: idsOf l ↔ _
  exact List.mem_cons

theorem rid_not_mem_gNew {recs : List RecordItem} {rid cn : String}
    (hnd : (idsOf recs).Nodup)
    {record : RecordItem} (hf : recs.find? (fun r => r.id == rid) = some record)
    (hdiff : ¬(record.categoryId = cn)) :
    record.id ∉ idsOf (gNewOf recs record cn) := by
  have hrecmem : record ∈ recs := List.mem_of_find?_eq_some hf
  apply not_mem_ids_sort_filter hnd hrecmem
  have h1 : (record.categoryId == cn) = false := beq_eq_false_iff_ne.mpr hdiff
  simp [h1]

/-- The moved record in the cross-category branch: it keeps its fields,
gets the destination category, and sits at position
`min newOrder (size of the destination group)`. -/
theorem cross_phi_moved {recs : List RecordItem} {rid cn : String} {n : Nat}
    (hnd : (idsOf recs).Nodup)
    {record : RecordItem} (hf : recs.find? (fun r => r.id == rid) = some record)
    (hdiff : ¬(record.categoryId = cn)) :
    lookupOrd (splOf recs record cn n) (keepOrd (gOldOf recs record rid) record) =
      { record with
          categoryId := cn
          order := Int.ofNat (min n (recs.filter
            (fun r => r.categoryId == cn && r.projectId == record.projectId)).length) } := by
  have hrid : record.id = rid := by simpa using List.find?_some hf
  have hrecmem : record ∈ recs := List.mem_of_find?_eq_some hf
  have hk : keepOrd (gOldOf recs record rid) record = record := by
    apply keepOrd_eq_self_of_not_group hnd hrecmem
    simp [hrid]
  rw [hk]
  unfold lookupOrd
  have hnotnew : ({ record with categoryId := cn } : RecordItem).id ∉ idsOf (gNewOf recs record cn) :=
    rid_not_mem_gNew hnd hf hdiff
  have hsplice := posFind_spliceIn_self hnotnew n
  rw [show posFind (splOf recs record cn n) record.id =
      some ({ record with categoryId := cn }, min n (gNewOf recs record cn).length) from hsplice]
  have hlen : (gNewOf recs record cn).length = (recs.filter
      (fun r => r.categoryId == cn && r.projectId == record.projectId)).length :=
    (sortByOrder_perm _).length_eq
  rw [hlen]

theorem cross_phi_old {recs : List RecordItem} {rid cn : String} {n : Nat}
    (hnd : (idsOf recs).Nodup)
    {record : RecordItem} (hf : recs.find? (fun r => r.id == rid) = some record)
    (hdiff : ¬(record.categoryId = cn)) {x : RecordItem} (hx : x ∈ recs)
    (hcx : (x.categoryId == record.categoryId && x.projectId == record.projectId && x.id != rid) = true) :
    lookupOrd (splOf recs record cn n) (keepOrd (gOldOf recs record rid) x) =
      lookupOrd (gOldOf recs record rid) x := by
  have hrid : record.id = rid := by simpa using List.find?_some hf
  simp only [Bool.and_eq_true, beq_iff_eq, bne_iff_ne, ne_eq] at hcx
  have hsub : ∀ y ∈ gOldOf recs record rid, y ∈ recs := fun y hy => mem_sort_filter_sub hy
  have hkl : lookupOrd (gOldOf recs record rid) x = keepOrd (gOldOf recs record rid) x :=
    lookupOrd_eq_keepOrd hnd hsub hx
  rw [← hkl]
  apply lookupOrd_eq_self_of_not_mem_ids
  rw [lookupOrd_id]
  intro hmem
  rcases mem_ids_spliceIn.mp hmem with h1 | h2
  · exact hcx.2 (h1.trans hrid)
  · rcases mem_idsOf.mp h2 with ⟨y, hy, hyid⟩
    have hyr : y ∈ recs := mem_sort_filter_sub hy
    have hyx : y = x := eq_of_mem_of_nodup_ids hnd hyr hx hyid
    subst hyx
    have hpy := List.of_mem_filter ((sortByOrder_perm _).mem_iff.mp hy)
    simp only [Bool.and_eq_true, beq_iff_eq] at hpy
    exact hdiff (by rw [← hcx.1.1]; exact hpy.1)

theorem cross_phi_new {recs : List RecordItem} {rid cn : String} {n : Nat}
    (hnd : (idsOf recs).Nodup)
    {record : RecordItem} (hf : recs.find? (fun r => r.id == rid) = some record)
    (hdiff : ¬(record.categoryId = cn)) {x : RecordItem} (hx : x ∈ recs)
    (hcx : (x.categoryId == cn && x.projectId == record.projectId) = true) :
    lookupOrd (splOf recs record cn n) (keepOrd (gOldOf recs record rid) x) =
      lookupOrd (splOf recs record cn n) x := by
  simp only [Bool.and_eq_true, beq_iff_eq] at hcx
  have hk : keepOrd (gOldOf recs record rid) x = x := by
    apply keepOrd_eq_self_of_not_group hnd hx
    have h1 : (x.categoryId == record.categoryId) = false := by
      apply beq_eq_false_iff_ne.mpr
      intro he
      exact hdiff (by rw [← he, hcx.1])
    simp [h1]
  rw [hk]

theorem cross_phi_other {recs : List RecordItem} {rid cn : String} {n : Nat}
    (hnd : (idsOf recs).Nodup)
    {record : RecordItem} (hf : recs.find? (fun r => r.id == rid) = some record)
    (hdiff : ¬(record.categoryId = cn)) {x : RecordItem} (hx : x ∈ recs)
    (h1 : ¬(x.id = rid))
    (h2 : ¬(x.categoryId = record.categoryId ∧ x.projectId = record.projectId))
    (h3 : ¬(x.categoryId = cn ∧ x.projectId = record.projectId)) :
    lookupOrd (splOf recs record cn n) (keepOrd (gOldOf recs record rid) x) = x := by
  have hk : keepOrd (gOldOf recs record rid) x = x := by
    apply keepOrd_eq_self_of_not_group hnd hx
    by_cases hc : x.categoryId = record.categoryId
    · by_cases hp : x.projectId = record.projectId
      · exact absurd ⟨hc, hp⟩ h2
      · simp [beq_eq_false_iff_ne.mpr hp]
    · simp [beq_eq_false_iff_ne.mpr hc]
  rw [hk]
  have hrid : record.id = rid := by simpa using List.find?_some hf
  apply lookupOrd_eq_self_of_not_mem_ids
  intro hmem
  rcases mem_ids_spliceIn.mp hmem with ha | hb
  · exact h1 (ha.trans hrid)
  · rcases mem_idsOf.mp hb with ⟨y, hy, hyid⟩
    have hyr : y ∈ recs := mem_sort_filter_sub hy
    have hyx : y = x := eq_of_mem_of_nodup_ids hnd hyr hx hyid
    subst hyx
    have hpy := List.of_mem_filter ((sortByOrder_perm _).mem_iff.mp hy)
    simp only [Bool.and_eq_true, beq_iff_eq] at hpy
    exact h3 ⟨hpy.1, hpy.2⟩

theorem nodup_ids_filter {recs : List RecordItem} (hnd : (idsOf recs).Nodup)
    (p : RecordItem → Bool) : (idsOf (recs.filter p)).Nodup := by
  have h2 : (idsOf (recs.filter p)).Sublist (idsOf recs) := by
    rw [idsOf_def, idsOf_def]
    exact (List.filter_sublist recs).map _
  exact List.Nodup.sublist h2 hnd

theorem same_spl_ids_perm {recs : List RecordItem} {rid : String} {n : Nat}
    {record : RecordItem} {q : RecordItem × Nat}
    (hq : posFind (gSameOf recs record) rid = some q) :
    List.Perm (idsOf (spliceIn n q.1 ((gSameOf recs record).eraseIdx q.2)))
      (idsOf (recs.filter
        (fun r => r.categoryId == record.categoryId && r.projectId == record.projectId))) :=
  (idsOf_perm (spliceIn_perm _ _ _)).trans
    ((idsOf_perm (perm_cons_eraseIdx hq)).symm.trans (idsOf_perm (sortByOrder_perm _)))

theorem same_spl_nodup {recs : List RecordItem} {rid : String} {n : Nat}
    (hnd : (idsOf recs).Nodup) {record : RecordItem} {q : RecordItem × Nat}
    (hq : posFind (gSameOf recs record) rid = some q) :
    (idsOf (spliceIn n q.1 ((gSameOf recs record).eraseIdx q.2))).Nodup :=
  (same_spl_ids_perm hq).nodup_iff.mpr (nodup_ids_filter hnd _)

theorem same_spl_sub {recs : List RecordItem} {rid : String} {n : Nat}
    {record : RecordItem} {q : RecordItem × Nat}
    (hq : posFind (gSameOf recs record) rid = some q) :
    ∀ y ∈ spliceIn n q.1 ((gSameOf recs record).eraseIdx q.2), y ∈ recs := by
  intro y hy
  rcases mem_spliceIn.mp hy with rfl | hy2
  · exact mem_sort_filter_sub (posFind_some_mem hq)
  · exact mem_sort_filter_sub (mem_eraseIdx_sub hy2)

/-- Same-category branch: the moved record's group in the result is the
original group, with each member's order replaced by its position in the
spliced sorted group. -/
theorem same_group_result {recs : List RecordItem} {rid cn : String} {n : Nat}
    (hnd : (idsOf recs).Nodup)
    {record : RecordItem} (hf : recs.find? (fun r => r.id == rid) = some record)
    (hsame : record.categoryId = cn)
    {q : RecordItem × Nat} (hq : posFind (gSameOf recs record) rid = some q) :
    (moveRecordAux recs rid cn n).filter
        (fun r => r.categoryId == record.categoryId && r.projectId == record.projectId) =
      (recs.filter
        (fun r => r.categoryId == record.categoryId && r.projectId == record.projectId)).map
        (lookupOrd (spliceIn n q.1 ((gSameOf recs record).eraseIdx q.2))) := by
  have hq2 : posFind (sortByOrder (recs.filter
      (fun r => r.categoryId == record.categoryId && r.projectId == record.projectId))) rid = some q := hq
  rw [moveRecordAux_same hnd hf hsame hq2, List.filter_map]
  have hcond : ∀ x ∈ recs,
      ((fun r => r.categoryId == record.categoryId && r.projectId == record.projectId) ∘
        (keepOrd (spliceIn n q.1
          ((sortByOrder (recs.filter
            (fun r => r.categoryId == record.categoryId && r.projectId == record.projectId))).eraseIdx q.2)))) x =
      (fun r => r.categoryId == record.categoryId && r.projectId == record.projectId) x := by
    intro x _
    have hfl := keepOrd_fields (spliceIn n q.1
      ((sortByOrder (recs.filter
        (fun r => r.categoryId == record.categoryId && r.projectId == record.projectId))).eraseIdx q.2)) x
    simp only [Function.comp, hfl.1, hfl.2.1]
  rw [List.filter_congr hcond]
  apply List.map_congr_left
  intro x hx
  exact (lookupOrd_eq_keepOrd hnd (same_spl_sub hq) (List.mem_of_mem_filter hx)).symm

/-- Same-category branch: every other `(category, project)` group is
untouched. -/
theorem same_other_group {recs : List RecordItem} {rid cn : String} {n : Nat}
    (hnd : (idsOf recs).Nodup)
    {record : RecordItem} (hf : recs.find? (fun r => r.id == rid) = some record)
    (hsame : record.categoryId = cn)
    {q : RecordItem × Nat} (hq : posFind (gSameOf recs record) rid = some q)
    {c2 p2 : String} (hne : ¬(c2 = record.categoryId ∧ p2 = record.projectId)) :
    (moveRecordAux recs rid cn n).filter
        (fun r => r.categoryId == c2 && r.projectId == p2) =
      recs.filter (fun r => r.categoryId == c2 && r.projectId == p2) := by
  have hq2 : posFind (sortByOrder (recs.filter
      (fun r => r.categoryId == record.categoryId && r.projectId == record.projectId))) rid = some q := hq
  rw [moveRecordAux_same hnd hf hsame hq2, List.filter_map]
  have hcond : ∀ x ∈ recs,
      ((fun r => r.categoryId == c2 && r.projectId == p2) ∘
        (keepOrd (spliceIn n q.1
          ((sortByOrder (recs.filter
            (fun r => r.categoryId == record.categoryId && r.projectId == record.projectId))).eraseIdx q.2)))) x =
      (fun r => r.categoryId == c2 && r.projectId == p2) x := by
    intro x _
    have hfl := keepOrd_fields (spliceIn n q.1
      ((sortByOrder (recs.filter
        (fun r => r.categoryId == record.categoryId && r.projectId == record.projectId))).eraseIdx q.2)) x
    simp only [Function.comp, hfl.1, hfl.2.1]
  rw [List.filter_congr hcond]
  have hid : ∀ x ∈ recs.filter (fun r => r.categoryId == c2 && r.projectId == p2),
      keepOrd (spliceIn n q.1
        ((sortByOrder (recs.filter
          (fun r => r.categoryId == record.categoryId && r.projectId == record.projectId))).eraseIdx q.2)) x = x := by
    intro x hx
    have hxr : x ∈ recs := List.mem_of_mem_filter hx
    have hpx := List.of_mem_filter hx
    simp only [Bool.and_eq_true, beq_iff_eq] at hpx
    apply keepOrd_of_none
    apply posFind_eq_none_of_not_mem
    intro hmem
    have hmem2 := (same_spl_ids_perm hq).mem_iff.mp hmem
    rcases mem_idsOf.mp hmem2 with ⟨y, hy, hyid⟩
    have hyr : y ∈ recs := List.mem_of_mem_filter hy
    have hyx : y = x := eq_of_mem_of_nodup_ids hnd hyr hxr hyid
    subst hyx
    have hpy := List.of_mem_filter hy
    simp only [Bool.and_eq_true, beq_iff_eq] at hpy
    exact hne ⟨by rw [← hpx.1, hpy.1], by rw [← hpx.2, hpy.2]⟩
  calc (recs.filter (fun r => r.categoryId == c2 && r.projectId == p2)).map
        (keepOrd (spliceIn n q.1
          ((sortByOrder (recs.filter
            (fun r => r.categoryId == record.categoryId && r.projectId == record.projectId))).eraseIdx q.2)))
      = (recs.filter (fun r => r.categoryId == c2 && r.projectId == p2)).map id :=
        List.map_congr_left (fun x hx => (hid x hx).trans rfl)
    _ = recs.filter (fun r => r.categoryId == c2 && r.projectId == p2) := List.map_id _

theorem keepOrd_core (g : List RecordItem) (x : RecordItem) :
    SameCore (keepOrd g x) x := by
  unfold SameCore keepOrd
  cases posFind g x.id <;> exact ⟨rfl, rfl, rfl, rfl, rfl, rfl, rfl⟩

/-- In the cross-category branch, every record other than the moved one
keeps all its fields except possibly `order`. -/
theorem cross_phi_core {recs : List RecordItem} {rid cn : String} {n : Nat}
    (hnd : (idsOf recs).Nodup)
    {record : RecordItem} (hf : recs.find? (fun r => r.id == rid) = some record)
    {x : RecordItem} (hx : x ∈ recs) (hxne : ¬(x.id = rid)) :
    SameCore (lookupOrd (splOf recs record cn n) (keepOrd (gOldOf recs record rid) x)) x ∧
    (lookupOrd (splOf recs record cn n) (keepOrd (gOldOf recs record rid) x)).categoryId =
      x.categoryId := by
  have hrid : record.id = rid := by simpa using List.find?_some hf
  have hkc := keepOrd_core (gOldOf recs record rid) x
  have hkcat : (keepOrd (gOldOf recs record rid) x).categoryId = x.categoryId :=
    (keepOrd_fields _ x).2.1
  have hkid : (keepOrd (gOldOf recs record rid) x).id = x.id := keepOrd_id _ x
  unfold lookupOrd
  rw [hkid]
  cases hp : posFind (splOf recs record cn n) x.id with
  | none => exact ⟨hkc, hkcat⟩
  | some q =>
    obtain ⟨y, j⟩ := q
    have hymem : y ∈ splOf recs record cn n := posFind_some_mem hp
    have hyid : y.id = x.id := posFind_some_id hp
    rcases mem_spliceIn.mp hymem with rfl | hy2
    · exact absurd (hyid.symm.trans hrid).symm (fun he => hxne he.symm)
    · have hyr : y ∈ recs := mem_sort_filter_sub hy2
      have hyx : y = x := eq_of_mem_of_nodup_ids hnd hyr hx hyid
      subst hyx
      exact ⟨⟨rfl, rfl, rfl, rfl, rfl, rfl, rfl⟩, rfl⟩

theorem lookupOrd_spl_moved {recs : List RecordItem} {rid cn : String} {n : Nat}
    (hnd : (idsOf recs).Nodup)
    {record : RecordItem} (hf : recs.find? (fun r => r.id == rid) = some record)
    (hdiff : ¬(record.categoryId = cn)) :
    lookupOrd (splOf recs record cn n) record =
      { record with
          categoryId := cn
          order := Int.ofNat (min n (recs.filter
            (fun r => r.categoryId == cn && r.projectId == record.projectId)).length) } := by
  unfold lookupOrd
  have hnotnew : ({ record with categoryId := cn } : RecordItem).id ∉ idsOf (gNewOf recs record cn) :=
    rid_not_mem_gNew hnd hf hdiff
  have hsplice := posFind_spliceIn_self hnotnew n
  rw [show posFind (splOf recs record cn n) record.id =
      some ({ record with categoryId := cn }, min n (gNewOf recs record cn).length) from hsplice]
  have hlen : (gNewOf recs record cn).length = (recs.filter
      (fun r => r.categoryId == cn && r.projectId == record.projectId)).length :=
    (sortByOrder_perm _).length_eq
  rw [hlen]

/-- Cross-category branch: the source group of the result is the original
source group (moved record removed), each member's order replaced by its
position in the sorted source group. -/
theorem cross_src_group {recs : List RecordItem} {rid cn : String} {n : Nat}
    (hnd : (idsOf recs).Nodup)
    {record : RecordItem} (hf : recs.find? (fun r => r.id == rid) = some record)
    (hdiff : ¬(record.categoryId = cn)) :
    (moveRecordAux recs rid cn n).filter
        (fun r => r.categoryId == record.categoryId && r.projectId == record.projectId) =
      (recs.filter
        (fun r => r.categoryId == record.categoryId && r.projectId == record.projectId && r.id != rid)).map
        (lookupOrd (gOldOf recs record rid)) := by
  have hrecmem : record ∈ recs := List.mem_of_find?_eq_some hf
  have hrid : record.id = rid := by simpa using List.find?_some hf
  rw [moveRecordAux_cross hnd hf hdiff, List.filter_map]
  have hcond : ∀ x ∈ recs,
      ((fun r => r.categoryId == record.categoryId && r.projectId == record.projectId) ∘
        (fun x => lookupOrd
          (spliceIn n { record with categoryId := cn }
            (sortByOrder (recs.filter (fun r => r.categoryId == cn && r.projectId == record.projectId))))
          (keepOrd (sortByOrder (recs.filter
            (fun r => r.categoryId == record.categoryId && r.projectId == record.projectId && r.id != rid))) x))) x =
      (fun r => r.categoryId == record.categoryId && r.projectId == record.projectId && r.id != rid) x := by
    intro x hx
    by_cases hxr : x.id = rid
    · have hxrec : x = record := eq_of_mem_of_nodup_ids hnd hx hrecmem (hxr.trans hrid.symm)
      subst hxrec
      have key := @cross_phi_moved recs rid cn n hnd x hf hdiff
      unfold splOf gOldOf gNewOf at key
      simp only [Function.comp]
      rw [key]
      simp [hrid, beq_eq_false_iff_ne.mpr (fun he => hdiff he.symm)]
    · have hc := @cross_phi_core recs rid cn n hnd record hf x hx hxr
      unfold splOf gOldOf gNewOf at hc
      simp only [Function.comp]
      rw [hc.2, hc.1.2.1]
      have hbne : (x.id != rid) = true := by simpa using hxr
      simp [hbne]
  rw [List.filter_congr hcond]
  apply List.map_congr_left
  intro x hx
  have hpx := List.of_mem_filter hx
  exact cross_phi_old hnd hf hdiff (List.mem_of_mem_filter hx) hpx

/-- Cross-category branch: the destination group of the result consists of
the moved record together with the original destination group, each with
its position in the spliced destination group as its order. -/
theorem cross_dest_group {recs : List RecordItem} {rid cn : String} {n : Nat}
    (hnd : (idsOf recs).Nodup)
    {record : RecordItem} (hf : recs.find? (fun r => r.id == rid) = some record)
    (hdiff : ¬(record.categoryId = cn)) :
    (moveRecordAux recs rid cn n).filter
        (fun r => r.categoryId == cn && r.projectId == record.projectId) =
      (recs.filter
        (fun x => x.id == rid || (x.categoryId == cn && x.projectId == record.projectId))).map
        (lookupOrd (splOf recs record cn n)) := by
  have hrecmem : record ∈ recs := List.mem_of_find?_eq_some hf
  have hrid : record.id = rid := by simpa using List.find?_some hf
  rw [moveRecordAux_cross hnd hf hdiff, List.filter_map]
  have hcond : ∀ x ∈ recs,
      ((fun r => r.categoryId == cn && r.projectId == record.projectId) ∘
        (fun x => lookupOrd
          (spliceIn n { record with categoryId := cn }
            (sortByOrder (recs.filter (fun r => r.categoryId == cn && r.projectId == record.projectId))))
          (keepOrd (sortByOrder (recs.filter
            (fun r => r.categoryId == record.categoryId && r.projectId == record.projectId && r.id != rid))) x))) x =
      (fun x => x.id == rid || (x.categoryId == cn && x.projectId == record.projectId)) x := by
    intro x hx
    by_cases hxr : x.id = rid
    · have hxrec : x = record := eq_of_mem_of_nodup_ids hnd hx hrecmem (hxr.trans hrid.symm)
      subst hxrec
      have key := @cross_phi_moved recs rid cn n hnd x hf hdiff
      unfold splOf gOldOf gNewOf at key
      simp only [Function.comp]
      rw [key]
      simp [hxr]
    · have hc := @cross_phi_core recs rid cn n hnd record hf x hx hxr
      unfold splOf gOldOf gNewOf at hc
      simp only [Function.comp]
      rw [hc.2, hc.1.2.1]
      have hbne : (x.id == rid) = false := beq_eq_false_iff_ne.mpr hxr
      simp [hbne]
  rw [List.filter_congr hcond]
  apply List.map_congr_left
  intro x hx
  have hpx := List.of_mem_filter hx
  have hxrec : x ∈ recs := List.mem_of_mem_filter hx
  simp only [Bool.or_eq_true, Bool.and_eq_true, beq_iff_eq] at hpx
  rcases hpx with h1 | h2
  · have hxrec2 : x = record := eq_of_mem_of_nodup_ids hnd hxrec hrecmem (h1.trans hrid.symm)
    subst hxrec2
    have key := @cross_phi_moved recs rid cn n hnd x hf hdiff
    have key2 := @lookupOrd_spl_moved recs rid cn n hnd x hf hdiff
    unfold splOf gOldOf gNewOf at key
    unfold splOf gNewOf at key2
    show lookupOrd (spliceIn n { x with categoryId := cn }
        (sortByOrder (recs.filter (fun r => r.categoryId == cn && r.projectId == x.projectId))))
        (keepOrd (sortByOrder (recs.filter
          (fun r => r.categoryId == x.categoryId && r.projectId == x.projectId && r.id != rid))) x) =
      lookupOrd (spliceIn n { x with categoryId := cn }
        (sortByOrder (recs.filter (fun r => r.categoryId == cn && r.projectId == x.projectId)))) x
    rw [key, key2]
  · have hcx : (x.categoryId == cn && x.projectId == record.projectId) = true := by
      simp [h2.1, h2.2]
    exact cross_phi_new hnd hf hdiff hxrec hcx

/-- Cross-category branch: every group other than the source and the
destination group is untouched. -/
theorem cross_other_group {recs : List RecordItem} {rid cn : String} {n : Nat}
    (hnd : (idsOf recs).Nodup)
    {record : RecordItem} (hf : recs.find? (fun r => r.id == rid) = some record)
    (hdiff : ¬(record.categoryId = cn))
    {c2 p2 : String}
    (hne1 : ¬(c2 = record.categoryId ∧ p2 = record.projectId))
    (hne2 : ¬(c2 = cn ∧ p2 = record.projectId)) :
    (moveRecordAux recs rid cn n).filter
        (fun r => r.categoryId == c2 && r.projectId == p2) =
      recs.filter (fun r => r.categoryId == c2 && r.projectId == p2) := by
  have hrecmem : record ∈ recs := List.mem_of_find?_eq_some hf
  have hrid : record.id = rid := by simpa using List.find?_some hf
  rw [moveRecordAux_cross hnd hf hdiff, List.filter_map]
  have hcond : ∀ x ∈ recs,
      ((fun r => r.categoryId == c2 && r.projectId == p2) ∘
        (fun x => lookupOrd
          (spliceIn n { record with categoryId := cn }
            (sortByOrder (recs.filter (fun r => r.categoryId == cn && r.projectId == record.projectId))))
          (keepOrd (sortByOrder (recs.filter
            (fun r => r.categoryId == record.categoryId && r.projectId == record.projectId && r.id != rid))) x))) x =
      (fun r => r.categoryId == c2 && r.projectId == p2) x := by
    intro x hx
    by_cases hxr : x.id = rid
    · have hxrec : x = record := eq_of_mem_of_nodup_ids hnd hx hrecmem (hxr.trans hrid.symm)
      subst hxrec
      have key := @cross_phi_moved recs rid cn n hnd x hf hdiff
      unfold splOf gOldOf gNewOf at key
      simp only [Function.comp]
      rw [key]
      have hL : (cn == c2) = false ∨ (x.projectId == p2) = false := by
        by_cases hc : c2 = cn
        · right
          apply beq_eq_false_iff_ne.mpr
          intro hp
          exact hne2 ⟨hc, hp.symm⟩
        · left
          exact beq_eq_false_iff_ne.mpr (fun he => hc he.symm)
      have hR : (x.categoryId == c2) = false ∨ (x.projectId == p2) = false := by
        by_cases hc : c2 = x.categoryId
        · right
          apply beq_eq_false_iff_ne.mpr
          intro hp
          exact hne1 ⟨hc, hp.symm⟩
        · left
          exact beq_eq_false_iff_ne.mpr (fun he => hc he.symm)
      rcases hL with hL | hL <;> rcases hR with hR | hR <;> simp [hL, hR]
    · have hc := @cross_phi_core recs rid cn n hnd record hf x hx hxr
      unfold splOf gOldOf gNewOf at hc
      simp only [Function.comp]
      rw [hc.2, hc.1.2.1]
  rw [List.filter_congr hcond]
  have hid : ∀ x ∈ recs.filter (fun r => r.categoryId == c2 && r.projectId == p2),
      lookupOrd (spliceIn n { record with categoryId := cn }
          (sortByOrder (recs.filter (fun r => r.categoryId == cn && r.projectId == record.projectId))))
        (keepOrd (sortByOrder (recs.filter
          (fun r => r.categoryId == record.categoryId && r.projectId == record.projectId && r.id != rid))) x) = x := by
    intro x hx
    have hxrec : x ∈ recs := List.mem_of_mem_filter hx
    have hpx := List.of_mem_filter hx
    simp only [Bool.and_eq_true, beq_iff_eq] at hpx
    have hxr : ¬(x.id = rid) := by
      intro he
      have hxeq : x = record := eq_of_mem_of_nodup_ids hnd hxrec hrecmem (he.trans hrid.symm)
      subst hxeq
      exact hne1 ⟨hpx.1.symm, hpx.2.symm⟩
    have h2 : ¬(x.categoryId = record.categoryId ∧ x.projectId = record.projectId) := by
      intro hcp
      exact hne1 ⟨hpx.1 ▸ hcp.1.symm ▸ rfl, hpx.2 ▸ hcp.2.symm ▸ rfl⟩
    have h3 : ¬(x.categoryId = cn ∧ x.projectId = record.projectId) := by
      intro hcp
      exact hne2 ⟨hpx.1 ▸ hcp.1.symm ▸ rfl, hpx.2 ▸ hcp.2.symm ▸ rfl⟩
    exact cross_phi_other hnd hf hdiff hxrec hxr h2 h3
  calc (recs.filter (fun r => r.categoryId == c2 && r.projectId == p2)).map
        (fun x => lookupOrd (spliceIn n { record with categoryId := cn }
            (sortByOrder (recs.filter (fun r => r.categoryId == cn && r.projectId == record.projectId))))
          (keepOrd (sortByOrder (recs.filter
            (fun r => r.categoryId == record.categoryId && r.projectId == record.projectId && r.id != rid))) x))
      = (recs.filter (fun r => r.categoryId == c2 && r.projectId == p2)).map id :=
        List.map_congr_left (fun x hx => (hid x hx).trans rfl)
    _ = recs.filter (fun r => r.categoryId == c2 && r.projectId == p2) := List.map_id _

theorem cross_dest_ids_perm {recs : List RecordItem} {rid cn : String} {n : Nat}
    (hnd : (idsOf recs).Nodup)
    {record : RecordItem} (hf : recs.find? (fun r => r.id == rid) = some record)
    (hdiff : ¬(record.categoryId = cn)) :
    List.Perm
      (idsOf (recs.filter
        (fun x => x.id == rid || (x.categoryId == cn && x.projectId == record.projectId))))
      (idsOf (splOf recs record cn n)) := by
  have hrecmem : record ∈ recs := List.mem_of_find?_eq_some hf
  have hrid : record.id = rid := by simpa using List.find?_some hf
  have hdisj : ∀ x ∈ recs,
      ¬((x.id == rid) = true ∧ (x.categoryId == cn && x.projectId == record.projectId) = true) := by
    intro x hx h
    rcases h with ⟨h1, h2⟩
    have hxrec : x = record :=
      eq_of_mem_of_nodup_ids hnd hx hrecmem ((beq_iff_eq.mp h1).trans hrid.symm)
    subst hxrec
    simp only [Bool.and_eq_true, beq_iff_eq] at h2
    exact hdiff h2.1
  have hperm1 := filter_or_perm hdisj
  have hsingle : recs.filter (fun x => x.id == rid) = [record] := by
    have hcg : ∀ x ∈ recs, (x.id == rid) = (x.id == record.id) := by
      intro x _
      rw [hrid]
    rw [List.filter_congr hcg]
    exact filter_eq_singleton hnd hrecmem
  rw [hsingle] at hperm1
  have h2 := idsOf_perm hperm1
  rw [idsOf_append] at h2
  have h3 : List.Perm (idsOf (splOf recs record cn n))
      (record.id :: idsOf (recs.filter
        (fun r => r.categoryId == cn && r.projectId == record.projectId))) := by
    have ha := idsOf_perm (spliceIn_perm n ({ record with categoryId := cn })
      (gNewOf recs record cn))
    have hb : List.Perm (idsOf (gNewOf recs record cn))
        (idsOf (recs.filter (fun r => r.categoryId == cn && r.projectId == record.projectId))) :=
      idsOf_perm (sortByOrder_perm _)
    exact ha.trans (hb.cons record.id)
  exact h2.trans h3.symm

/-! ## Claim theorems -/

/-- C3: cascading deletes keep referential integrity: after
`deleteProject id` no category, record, or log with `projectId = id`
remains, and after `deleteCategory id` no record with `categoryId = id`
remains. -/
theorem c3_cascade_integrity (s : AppState) (pid cid : String) :
    ((deleteProject pid s).categories.all (fun c => c.projectId != pid)) = true ∧
    ((deleteProject pid s).records.all (fun r => r.projectId != pid)) = true ∧
    ((deleteProject pid s).logs.all (fun l => l.projectId != pid)) = true ∧
    ((deleteCategory cid s).records.all (fun r => r.categoryId != cid)) = true := by
  refine ⟨?_, ?_, ?_, ?_⟩ <;>
  · simp only [deleteProject, deleteCategory]
    apply List.all_eq_true.mpr
    intro x hx
    have hpx := List.of_mem_filter hx
    exact hpx

theorem moveRecordAux_none {recs : List RecordItem} {rid cn : String} {n : Nat}
    (hf : recs.find? (fun r => r.id == rid) = none) :
    moveRecordAux recs rid cn n = recs := by
  unfold moveRecordAux
  rw [hf]

/-- C8: `moveRecord` on a missing record id returns the state unchanged,
and `deleteRecord` on a missing id returns the state unchanged (in
particular it appends no log entry). -/
theorem c8_missing_record_noop (s : AppState) (rid cn lid : String) (n : Nat) (now : Int)
    (h : ∀ r ∈ s.records, ¬(r.id = rid)) :
    moveRecord rid cn n s = s ∧ deleteRecord rid lid now s = s := by
  have hf : s.records.find? (fun r => r.id == rid) = none :=
    List.find?_eq_none.mpr (fun x hx => by simpa using h x hx)
  constructor
  · unfold moveRecord
    rw [moveRecordAux_none hf]
  · unfold deleteRecord
    rw [hf]

/-- C8 witness: on a concrete state with records `r1`, `r2`, moving or
deleting the absent id `zz` is a no-op. -/
theorem c8_missing_record_noop_witness :
    (∀ r ∈ stPair.records, ¬(r.id = "zz")) ∧
    (moveRecord "zz" "A" 0 stPair = stPair ∧ deleteRecord "zz" "lg" 5 stPair = stPair) :=
  ⟨by decide, c8_missing_record_noop stPair "zz" "A" "lg" 0 5 (by decide)⟩

/-- C10: the two copies of `useStore` (with and without audit logs) agree
on the `projects`, `categories` and `records` components for every
operation defined in both, given the same generated ids and timestamps. -/
theorem c10_versions_agree (s d : AppState)
    (name pid cid1 cid2 cid3 cid4 lid rid uid did mid cid ncat ccid ncn : String)
    (now : Int) (ps : List Project) (cs : List Category) (input : RecordInput)
    (u : RecordUpdates) (nn : Nat) :
    stripLogs (addProject name pid cid1 cid2 cid3 cid4 lid now s) =
      V2.addProject name pid cid1 cid2 cid3 cid4 (stripLogs s) ∧
    stripLogs (updateProject uid name s) = V2.updateProject uid name (stripLogs s) ∧
    stripLogs (deleteProject pid s) = V2.deleteProject pid (stripLogs s) ∧
    stripLogs (reorderProjects ps s) = V2.reorderProjects ps (stripLogs s) ∧
    stripLogs (addCategory ncat pid ccid s) = V2.addCategory ncat pid ccid (stripLogs s) ∧
    stripLogs (updateCategory cid ncat s) = V2.updateCategory cid ncat (stripLogs s) ∧
    stripLogs (deleteCategory cid s) = V2.deleteCategory cid (stripLogs s) ∧
    stripLogs (reorderCategories cs s) = V2.reorderCategories cs (stripLogs s) ∧
    stripLogs (addRecord input rid lid now s) = V2.addRecord input rid now (stripLogs s) ∧
    stripLogs (updateRecord rid u lid now s) = V2.updateRecord rid u (stripLogs s) ∧
    stripLogs (deleteRecord did lid now s) = V2.deleteRecord did (stripLogs s) ∧
    stripLogs (moveRecord mid ncn nn s) = V2.moveRecord mid ncn nn (stripLogs s) ∧
    stripLogs (importData d s) = V2.importData (stripLogs d) (stripLogs s) := by
  refine ⟨rfl, rfl, rfl, rfl, rfl, rfl, rfl, rfl, rfl, rfl, ?_, rfl, rfl⟩
  unfold deleteRecord V2.deleteRecord stripLogs
  cases hfd : s.records.find? (fun r => r.id == did) with
  | none =>
    have hself : s.records.filter (fun r => r.id != did) = s.records := by
      apply List.filter_eq_self.mpr
      intro a ha
      have hne := List.find?_eq_none.mp hfd a ha
      simpa using hne
    simp only [hself]
  | some r => rfl

/-- C4 counterexample: `moveRecord` changes the state (it reorders the
records) but appends no audit log entry, refuting the claim that every
state-changing core operation appends a log entry. -/
theorem c4_counterexample :
    (moveRecord "r1" "A" 1 stPair).records ≠ stPair.records ∧
    (moveRecord "r1" "A" 1 stPair).logs = stPair.logs := by
  constructor
  · decide
  · rfl

/-- C4 (amended): only `addProject`, `addRecord` and `deleteRecord` (on an
existing id) append an audit log entry, and `updateRecord` appends one
exactly when a todo record's type is changed to a different type; all
other operations leave the log unchanged, except `deleteProject`, which
removes the deleted project's logs, and `deleteLogs`, which removes the
given entries. -/
theorem c4_audit_log_behavior (s : AppState)
    (name pid cid1 cid2 cid3 cid4 lid rid uid did mid cid ncat ccid ncn : String)
    (now : Int) (ps : List Project) (cs : List Category) (input : RecordInput)
    (u : RecordUpdates) (nn : Nat) :
    (addProject name pid cid1 cid2 cid3 cid4 lid now s).logs =
      s.logs ++ [{ id := lid, projectId := pid, content := "增加项目: " ++ name, timestamp := now }] ∧
    (addRecord input rid lid now s).logs =
      s.logs ++ [{ id := lid
                   projectId := input.projectId
                   content := (if input.type == RecordType.milestone
                     then "增加里程碑: " ++ input.title else "增加记录: " ++ input.title)
                   timestamp := now }] ∧
    (deleteRecord did lid now s).logs = (match s.records.find? (fun r => r.id == did) with
      | some r => s.logs ++ [{ id := lid
                               projectId := r.projectId
                               content := "删除记录: " ++ r.title
                               timestamp := now }]
      | none => s.logs) ∧
    (updateRecord rid u lid now s).logs = (match s.records.find? (fun r => r.id == rid) with
      | some oldRecord =>
        if oldRecord.type == RecordType.todo &&
            (match u.type with | some t => t != RecordType.todo | none => false) then
          s.logs ++ [{ id := lid
                       projectId := oldRecord.projectId
                       content := "完成待办任务: " ++ oldRecord.title
                       timestamp := now }]
        else s.logs
      | none => s.logs) ∧
    (updateProject uid name s).logs = s.logs ∧
    (deleteProject pid s).logs = s.logs.filter (fun l => l.projectId != pid) ∧
    (reorderProjects ps s).logs = s.logs ∧
    (addCategory ncat pid ccid s).logs = s.logs ∧
    (updateCategory cid ncat s).logs = s.logs ∧
    (deleteCategory cid s).logs = s.logs ∧
    (reorderCategories cs s).logs = s.logs ∧
    (moveRecord mid ncn nn s).logs = s.logs := by
  refine ⟨rfl, rfl, ?_, rfl, rfl, rfl, rfl, rfl, rfl, rfl, rfl, rfl⟩
  unfold deleteRecord
  cases hfd : s.records.find? (fun r => r.id == did) with
  | none => rfl
  | some r => rfl

theorem find?_congr_list {l : List RecordItem} {p q2 : RecordItem → Bool}
    (h : ∀ x ∈ l, p x = q2 x) : l.find? p = l.find? q2 := by
  induction l with
  | nil => rfl
  | cons x xs ih =>
    have hx := h x (List.mem_cons_self x xs)
    cases hp : p x with
    | true =>
      rw [List.find?_cons_of_pos _ hp, List.find?_cons_of_pos _ (hx ▸ hp)]
    | false =>
      rw [List.find?_cons_of_neg _ (by simp [hp]),
        List.find?_cons_of_neg _ (by rw [← hx]; simp [hp])]
      exact ih (fun y hy => h y (List.mem_cons_of_mem x hy))

theorem cross_src_groupOk {recs : List RecordItem} {rid cn : String} {n : Nat}
    (hnd : (idsOf recs).Nodup)
    {record : RecordItem} (hf : recs.find? (fun r => r.id == rid) = some record)
    (hdiff : ¬(record.categoryId = cn)) :
    groupOk (moveRecordAux recs rid cn n) record.categoryId record.projectId := by
  unfold groupOk catProj
  rw [cross_src_group hnd hf hdiff]
  have hperm : List.Perm
      (idsOf (recs.filter
        (fun r => r.categoryId == record.categoryId && r.projectId == record.projectId && r.id != rid)))
      (idsOf (gOldOf recs record rid)) :=
    (idsOf_perm (sortByOrder_perm _)).symm
  have h := orders_map_lookupOrd (nodup_ids_sort_filter hnd
    (fun r => r.categoryId == record.categoryId && r.projectId == record.projectId && r.id != rid)) hperm
  rw [List.length_map]
  have hlen : (gOldOf recs record rid).length = (recs.filter
      (fun r => r.categoryId == record.categoryId && r.projectId == record.projectId && r.id != rid)).length :=
    (sortByOrder_perm _).length_eq
  rw [← hlen]
  exact h

theorem cross_dest_groupOk {recs : List RecordItem} {rid cn : String} {n : Nat}
    (hnd : (idsOf recs).Nodup)
    {record : RecordItem} (hf : recs.find? (fun r => r.id == rid) = some record)
    (hdiff : ¬(record.categoryId = cn)) :
    groupOk (moveRecordAux recs rid cn n) cn record.projectId := by
  unfold groupOk catProj
  rw [cross_dest_group hnd hf hdiff]
  have hndspl : (idsOf (splOf recs record cn n)).Nodup :=
    (cross_dest_ids_perm hnd hf hdiff).nodup_iff.mp (nodup_ids_filter hnd _)
  have h := orders_map_lookupOrd hndspl (cross_dest_ids_perm hnd hf hdiff)
  rw [List.length_map]
  have hlen : (splOf recs record cn n).length = (recs.filter
      (fun x => x.id == rid || (x.categoryId == cn && x.projectId == record.projectId))).length := by
    have h2 := (@cross_dest_ids_perm recs rid cn n hnd record hf hdiff).length_eq
    rw [idsOf_length, idsOf_length] at h2
    exact h2.symm
  rw [← hlen]
  exact h

theorem same_groupOk {recs : List RecordItem} {rid cn : String} {n : Nat}
    (hnd : (idsOf recs).Nodup)
    {record : RecordItem} (hf : recs.find? (fun r => r.id == rid) = some record)
    (hsame : record.categoryId = cn)
    {q : RecordItem × Nat} (hq : posFind (gSameOf recs record) rid = some q) :
    groupOk (moveRecordAux recs rid cn n) record.categoryId record.projectId := by
  unfold groupOk catProj
  rw [same_group_result hnd hf hsame hq]
  have h := orders_map_lookupOrd (@same_spl_nodup recs rid n hnd record q hq)
    (@same_spl_ids_perm recs rid n record q hq).symm
  rw [List.length_map]
  have hlen : (spliceIn n q.1 ((gSameOf recs record).eraseIdx q.2)).length =
      (recs.filter
        (fun r => r.categoryId == record.categoryId && r.projectId == record.projectId)).length := by
    have h2 := (@same_spl_ids_perm recs rid n record q hq).length_eq
    rw [idsOf_length, idsOf_length] at h2
    exact h2
  rw [← hlen]
  exact h

/-- C2 (amended): a single `moveRecord` call that moves a record across
categories reindexes both groups within one state transition: the moved
record ends up in the destination category, and both the source group and
the destination group of the moved record's project carry orders
`0, ..., n-1` in the returned state. Records of other projects sharing
those categories are not renumbered. -/
theorem c2_cross_move_reindexes (s : AppState) (rid cn : String) (n : Nat)
    (record : RecordItem)
    (hnd : (idsOf s.records).Nodup)
    (hf : s.records.find? (fun r => r.id == rid) = some record)
    (hdiff : ¬(record.categoryId = cn)) :
    (((moveRecord rid cn n s).records.find? (fun r => r.id == rid)).map
        (fun r => r.categoryId)) = some cn ∧
    groupOk (moveRecord rid cn n s).records record.categoryId record.projectId ∧
    groupOk (moveRecord rid cn n s).records cn record.projectId := by
  have hrecs : (moveRecord rid cn n s).records = moveRecordAux s.records rid cn n := rfl
  refine ⟨?_, ?_, ?_⟩
  · rw [hrecs, moveRecordAux_cross hnd hf hdiff, List.find?_map]
    have hcg : ∀ x ∈ s.records,
        ((fun r => r.id == rid) ∘
          (fun x => lookupOrd
            (spliceIn n { record with categoryId := cn }
              (sortByOrder (s.records.filter (fun r => r.categoryId == cn && r.projectId == record.projectId))))
            (keepOrd (sortByOrder (s.records.filter
              (fun r => r.categoryId == record.categoryId && r.projectId == record.projectId && r.id != rid))) x))) x =
        (fun r => r.id == rid) x := by
      intro x _
      show ((lookupOrd _ (keepOrd _ x)).id == rid) = (x.id == rid)
      rw [lookupOrd_id, keepOrd_id]
    rw [find?_congr_list hcg, hf]
    simp only [Option.map_some']
    have key := @cross_phi_moved s.records rid cn n hnd record hf hdiff
    unfold splOf gOldOf gNewOf at key
    rw [key]
  · rw [hrecs]
    exact cross_src_groupOk hnd hf hdiff
  · rw [hrecs]
    exact cross_dest_groupOk hnd hf hdiff

/-- C2 counterexample (claim as stated, per category): in a state where
category `A` holds records of two projects, moving the project-`P` record
out of `A` leaves the foreign record's order at `7`, so the orders of the
whole source category do not form `0, ..., n-1`. -/
theorem c2_counterexample :
    stShared.records.find? (fun r => r.id == "m") = some (mkRec "m" "P" "A" 0) ∧
    (mkRec "m" "P" "A" 0).categoryId ≠ "B" ∧
    ¬ List.Perm
        (((moveRecord "m" "B" 0 stShared).records.filter
          (fun r => r.categoryId == "A")).map (fun r => r.order))
        ((List.range ((moveRecord "m" "B" 0 stShared).records.filter
          (fun r => r.categoryId == "A")).length).map Int.ofNat) := by
  refine ⟨by decide, by decide, by decide⟩

/-- C2 witness: the theorem applied to a concrete three-record state,
moving record `a` from category `A` to category `B`. -/
theorem c2_cross_move_reindexes_witness :
    ((idsOf stTwoCats.records).Nodup ∧
     stTwoCats.records.find? (fun r => r.id == "a") = some (mkRec "a" "P" "A" 0) ∧
     ¬((mkRec "a" "P" "A" 0).categoryId = "B")) ∧
    ((((moveRecord "a" "B" 1 stTwoCats).records.find? (fun r => r.id == "a")).map
        (fun r => r.categoryId)) = some "B" ∧
     groupOk (moveRecord "a" "B" 1 stTwoCats).records (mkRec "a" "P" "A" 0).categoryId
       (mkRec "a" "P" "A" 0).projectId ∧
     groupOk (moveRecord "a" "B" 1 stTwoCats).records "B" (mkRec "a" "P" "A" 0).projectId) :=
  ⟨⟨by decide, by decide, by decide⟩,
   c2_cross_move_reindexes stTwoCats "a" "B" 1 (mkRec "a" "P" "A" 0)
     (by decide) (by decide) (by decide)⟩

theorem cross_src_sorted {recs : List RecordItem} {rid cn : String} {n : Nat}
    (hnd : (idsOf recs).Nodup)
    {record : RecordItem} (hf : recs.find? (fun r => r.id == rid) = some record)
    (hdiff : ¬(record.categoryId = cn)) :
    sortByOrder ((moveRecordAux recs rid cn n).filter
        (fun r => r.categoryId == record.categoryId && r.projectId == record.projectId)) =
      reindexFrom 0 (gOldOf recs record rid) := by
  rw [cross_src_group hnd hf hdiff]
  exact sorted_map_lookupOrd (nodup_ids_sort_filter hnd _) (idsOf_perm (sortByOrder_perm _)).symm

theorem cross_dest_sorted {recs : List RecordItem} {rid cn : String} {n : Nat}
    (hnd : (idsOf recs).Nodup)
    {record : RecordItem} (hf : recs.find? (fun r => r.id == rid) = some record)
    (hdiff : ¬(record.categoryId = cn)) :
    sortByOrder ((moveRecordAux recs rid cn n).filter
        (fun r => r.categoryId == cn && r.projectId == record.projectId)) =
      reindexFrom 0 (splOf recs record cn n) := by
  rw [cross_dest_group hnd hf hdiff]
  exact sorted_map_lookupOrd
    ((@cross_dest_ids_perm recs rid cn n hnd record hf hdiff).nodup_iff.mp (nodup_ids_filter hnd _))
    (@cross_dest_ids_perm recs rid cn n hnd record hf hdiff)

/-- C6 (amended): ordering is stable across reparenting within the moved
record's project: a cross-category `moveRecord` keeps the relative order of
the source group's remaining records and of the destination group's
pre-existing records, and splices the moved record in at position
`min newOrder (size of the destination group)`. -/
theorem c6_stable_reparenting (s : AppState) (rid cn : String) (n : Nat)
    (record : RecordItem)
    (hnd : (idsOf s.records).Nodup)
    (hf : s.records.find? (fun r => r.id == rid) = some record)
    (hdiff : ¬(record.categoryId = cn)) :
    idsOf (sortByOrder ((moveRecord rid cn n s).records.filter
        (fun r => r.categoryId == record.categoryId && r.projectId == record.projectId))) =
      idsOf (sortByOrder (s.records.filter
        (fun r => r.categoryId == record.categoryId && r.projectId == record.projectId && r.id != rid))) ∧
    idsOf ((sortByOrder ((moveRecord rid cn n s).records.filter
        (fun r => r.categoryId == cn && r.projectId == record.projectId))).filter
        (fun r => r.id != rid)) =
      idsOf (sortByOrder (s.records.filter
        (fun r => r.categoryId == cn && r.projectId == record.projectId))) ∧
    (((sortByOrder ((moveRecord rid cn n s).records.filter
        (fun r => r.categoryId == cn && r.projectId == record.projectId))).get?
        (min n (s.records.filter
          (fun r => r.categoryId == cn && r.projectId == record.projectId)).length)).map
      (fun r => r.id)) = some rid := by
  have hrecs : (moveRecord rid cn n s).records = moveRecordAux s.records rid cn n := rfl
  have hrid : record.id = rid := by simpa using List.find?_some hf
  have hrecmem : record ∈ s.records := List.mem_of_find?_eq_some hf
  have hlen : (gNewOf s.records record cn).length = (s.records.filter
      (fun r => r.categoryId == cn && r.projectId == record.projectId)).length :=
    (sortByOrder_perm _).length_eq
  refine ⟨?_, ?_, ?_⟩
  · rw [hrecs, cross_src_sorted hnd hf hdiff]
    exact reindexFrom_ids 0 _
  · rw [hrecs, cross_dest_sorted hnd hf hdiff]
    have h1 : idsOf ((reindexFrom 0 (splOf s.records record cn n)).filter
        (fun r => r.id != rid)) =
        idsOf ((splOf s.records record cn n).filter (fun r => r.id != rid)) :=
      filter_reindexFrom_ids (fun i => i != rid) 0 _
    rw [h1]
    have hmr : ((({ record with categoryId := cn } : RecordItem).id != rid)) = false := by
      simp [hrid]
    have h2 : (splOf s.records record cn n).filter (fun r => r.id != rid) =
        (gNewOf s.records record cn).filter (fun r => r.id != rid) :=
      spliceIn_filter_neg hmr n _
    rw [h2]
    have h3 : (gNewOf s.records record cn).filter (fun r => r.id != rid) =
        gNewOf s.records record cn := by
      apply List.filter_eq_self.mpr
      intro y hy
      have hyr : y ∈ s.records := mem_sort_filter_sub hy
      simp only [bne_iff_ne, ne_eq, decide_eq_true_eq]
      intro he
      have hyrec : y = record := eq_of_mem_of_nodup_ids hnd hyr hrecmem (he.trans hrid.symm)
      subst hyrec
      have hpy := List.of_mem_filter ((sortByOrder_perm _).mem_iff.mp hy)
      simp only [Bool.and_eq_true, beq_iff_eq] at hpy
      exact hdiff hpy.1
    rw [h3]
    rfl
  · rw [hrecs, cross_dest_sorted hnd hf hdiff, ← hlen, reindexFrom_get?]
    have hget : (splOf s.records record cn n).get? (min n (gNewOf s.records record cn).length) =
        some ({ record with categoryId := cn }) := spliceIn_get_min n _ _
    rw [hget]
    simp [hrid]

/-- C6 counterexample (claim as stated, per category): with category `A`
holding records of two projects interleaved by order (`m (P, 0)`,
`x (Q, 1)`, `c (P, 2)`), moving `m` to another category renumbers only the
project-`P` records, so the source category's remaining records change
their relative order from `x, c` to `c, x`. -/
theorem c6_counterexample :
    stInterleaved.records.find? (fun r => r.id == "m") = some (mkRec "m" "P" "A" 0) ∧
    (mkRec "m" "P" "A" 0).categoryId ≠ "B" ∧
    (sortByOrder ((moveRecord "m" "B" 0 stInterleaved).records.filter
      (fun r => r.categoryId == "A"))).map (fun r => r.id) = ["c", "x"] ∧
    (sortByOrder (stInterleaved.records.filter
      (fun r => r.categoryId == "A" && r.id != "m"))).map (fun r => r.id) = ["x", "c"] := by
  refine ⟨by decide, by decide, by decide, by decide⟩

/-- C6 witness: the theorem applied to a concrete state, moving record `a`
from category `A` to category `B` at position `0`. -/
theorem c6_stable_reparenting_witness :
    ((idsOf stTwoCats.records).Nodup ∧
     stTwoCats.records.find? (fun r => r.id == "a") = some (mkRec "a" "P" "A" 0) ∧
     ¬((mkRec "a" "P" "A" 0).categoryId = "B")) ∧
    (idsOf (sortByOrder ((moveRecord "a" "B" 0 stTwoCats).records.filter
        (fun r => r.categoryId == (mkRec "a" "P" "A" 0).categoryId &&
          r.projectId == (mkRec "a" "P" "A" 0).projectId))) =
      idsOf (sortByOrder (stTwoCats.records.filter
        (fun r => r.categoryId == (mkRec "a" "P" "A" 0).categoryId &&
          r.projectId == (mkRec "a" "P" "A" 0).projectId && r.id != "a"))) ∧
     idsOf ((sortByOrder ((moveRecord "a" "B" 0 stTwoCats).records.filter
        (fun r => r.categoryId == "B" && r.projectId == (mkRec "a" "P" "A" 0).projectId))).filter
        (fun r => r.id != "a")) =
      idsOf (sortByOrder (stTwoCats.records.filter
        (fun r => r.categoryId == "B" && r.projectId == (mkRec "a" "P" "A" 0).projectId))) ∧
     (((sortByOrder ((moveRecord "a" "B" 0 stTwoCats).records.filter
        (fun r => r.categoryId == "B" && r.projectId == (mkRec "a" "P" "A" 0).projectId))).get?
        (min 0 (stTwoCats.records.filter
          (fun r => r.categoryId == "B" && r.projectId == (mkRec "a" "P" "A" 0).projectId)).length)).map
      (fun r => r.id)) = some "a") :=
  ⟨⟨by decide, by decide, by decide⟩,
   c6_stable_reparenting stTwoCats "a" "B" 0 (mkRec "a" "P" "A" 0)
     (by decide) (by decide) (by decide)⟩

theorem same_sorted {recs : List RecordItem} {rid cn : String} {n : Nat}
    (hnd : (idsOf recs).Nodup)
    {record : RecordItem} (hf : recs.find? (fun r => r.id == rid) = some record)
    (hsame : record.categoryId = cn)
    {q : RecordItem × Nat} (hq : posFind (gSameOf recs record) rid = some q) :
    sortByOrder ((moveRecordAux recs rid cn n).filter
        (fun r => r.categoryId == record.categoryId && r.projectId == record.projectId)) =
      reindexFrom 0 (spliceIn n q.1 ((gSameOf recs record).eraseIdx q.2)) := by
  rw [same_group_result hnd hf hsame hq]
  exact sorted_map_lookupOrd (@same_spl_nodup recs rid n hnd record q hq)
    (@same_spl_ids_perm recs rid n record q hq).symm

theorem filter_self_idem (l : List RecordItem) (p : RecordItem → Bool) :
    (l.filter p).filter p = l.filter p :=
  List.filter_eq_self.mpr (fun a ha => List.of_mem_filter ha)

/-- C5 (amended): `moveRecord` within one category, when all records of the
category belong to the moved record's project: the moved record ends at
position `min newOrder (n-1)` of the category's order-sorted list, the
relative order of the other records is unchanged, and the orders are
renumbered `0, ..., n-1`. -/
theorem c5_move_within_category (s : AppState) (rid c : String) (n' : Nat)
    (record : RecordItem)
    (hnd : (idsOf s.records).Nodup)
    (hf : s.records.find? (fun r => r.id == rid) = some record)
    (hcat : record.categoryId = c)
    (hproj : ∀ r ∈ s.records, r.categoryId = c → r.projectId = record.projectId)
    (hord : (sortByOrder (s.records.filter (fun r => r.categoryId == c))).map (fun r => r.order) =
      (List.range (s.records.filter (fun r => r.categoryId == c)).length).map Int.ofNat) :
    (((sortByOrder ((moveRecord rid c n' s).records.filter
        (fun r => r.categoryId == c))).get?
        (min n' ((s.records.filter (fun r => r.categoryId == c)).length - 1))).map
      (fun r => r.id)) = some rid ∧
    idsOf ((sortByOrder ((moveRecord rid c n' s).records.filter
        (fun r => r.categoryId == c))).filter (fun r => r.id != rid)) =
      idsOf ((sortByOrder (s.records.filter (fun r => r.categoryId == c))).filter
        (fun r => r.id != rid)) ∧
    (sortByOrder ((moveRecord rid c n' s).records.filter
        (fun r => r.categoryId == c))).map (fun r => r.order) =
      (List.range (s.records.filter (fun r => r.categoryId == c)).length).map Int.ofNat := by
  clear hord
  subst hcat
  have hrecs : (moveRecord rid record.categoryId n' s).records =
      moveRecordAux s.records rid record.categoryId n' := rfl
  have hrid : record.id = rid := by simpa using List.find?_some hf
  have hrecmem : record ∈ s.records := List.mem_of_find?_eq_some hf
  have hmemg : record ∈ gSameOf s.records record :=
    (sortByOrder_perm _).mem_iff.mpr (List.mem_filter.mpr ⟨hrecmem, by simp⟩)
  have hqex := posFind_isSome_of_mem hmemg hrid
  cases hq : posFind (gSameOf s.records record) rid with
  | none => rw [hq] at hqex; simp at hqex
  | some q =>
  have hcats : s.records.filter (fun r => r.categoryId == record.categoryId) =
      s.records.filter
        (fun r => r.categoryId == record.categoryId && r.projectId == record.projectId) := by
    apply List.filter_congr
    intro x hx
    by_cases hcx : x.categoryId = record.categoryId
    · have hpx := hproj x hx hcx
      simp [hcx, hpx]
    · simp [beq_eq_false_iff_ne.mpr hcx]
  have hcatres : (moveRecordAux s.records rid record.categoryId n').filter
        (fun r => r.categoryId == record.categoryId) =
      (moveRecordAux s.records rid record.categoryId n').filter
        (fun r => r.categoryId == record.categoryId && r.projectId == record.projectId) := by
    apply List.filter_congr
    intro x hx
    rw [moveRecordAux_same hnd hf rfl hq] at hx
    rcases List.mem_map.mp hx with ⟨x0, hx0, rfl⟩
    have hfl := keepOrd_fields (spliceIn n' q.1
      ((sortByOrder (s.records.filter
        (fun r => r.categoryId == record.categoryId && r.projectId == record.projectId))).eraseIdx q.2)) x0
    by_cases hcx : x0.categoryId = record.categoryId
    · have hpx := hproj x0 hx0 hcx
      simp [hfl.1, hfl.2.1, hcx, hpx]
    · simp [hfl.2.1, beq_eq_false_iff_ne.mpr hcx]
  have hglen : (gSameOf s.records record).length =
      (s.records.filter (fun r => r.categoryId == record.categoryId)).length := by
    rw [hcats]
    exact (sortByOrder_perm _).length_eq
  have hspllen : (spliceIn n' q.1 ((gSameOf s.records record).eraseIdx q.2)).length =
      (s.records.filter (fun r => r.categoryId == record.categoryId)).length := by
    have h2 := (@same_spl_ids_perm s.records rid n' record q hq).length_eq
    rw [idsOf_length, idsOf_length] at h2
    rw [h2, ← hcats]
  have herase : ((gSameOf s.records record).eraseIdx q.2).length =
      (s.records.filter (fun r => r.categoryId == record.categoryId)).length - 1 := by
    rw [List.length_eraseIdx, if_pos (posFind_lt_length hq), hglen]
  refine ⟨?_, ?_, ?_⟩
  · rw [hrecs, hcatres, same_sorted hnd hf rfl hq, ← herase, reindexFrom_get?,
      spliceIn_get_min]
    simp [posFind_some_id hq]
  · rw [hrecs, hcatres, same_sorted hnd hf rfl hq]
    have h1 : idsOf ((reindexFrom 0 (spliceIn n' q.1
        ((gSameOf s.records record).eraseIdx q.2))).filter (fun r => r.id != rid)) =
        idsOf ((spliceIn n' q.1
          ((gSameOf s.records record).eraseIdx q.2)).filter (fun r => r.id != rid)) :=
      filter_reindexFrom_ids (fun i => i != rid) 0 _
    rw [h1]
    have hmr : ((q.1.id != rid)) = false := by
      simp [posFind_some_id hq]
    have h2 : (spliceIn n' q.1 ((gSameOf s.records record).eraseIdx q.2)).filter
          (fun r => r.id != rid) =
        ((gSameOf s.records record).eraseIdx q.2).filter (fun r => r.id != rid) :=
      spliceIn_filter_neg hmr n' _
    rw [h2]
    have hgnd : (idsOf (gSameOf s.records record)).Nodup :=
      nodup_ids_sort_filter hnd _
    rw [posFind_eraseIdx_filter hgnd hq, filter_self_idem]
    have hrhs : sortByOrder (s.records.filter (fun r => r.categoryId == record.categoryId)) =
        gSameOf s.records record := by
      rw [hcats]
      rfl
    rw [hrhs]
  · rw [hrecs, hcatres, same_sorted hnd hf rfl hq, reindexFrom_orders, hspllen]
    apply List.map_congr_left
    intro j _
    simp

/-- C5 counterexample (claim as stated, per category): category `A` holds
`m (project P, order 0)` and `x (project Q, order 1)`, a contiguously
ordered category. `moveRecord m A 1` only splices the project-`P` group,
so the record at position `min 1 (n-1) = 1` of the resulting sorted
category is `x`, not the moved record. -/
theorem c5_counterexample :
    stShared01.records.find? (fun r => r.id == "m") = some (mkRec "m" "P" "A" 0) ∧
    (sortByOrder (stShared01.records.filter (fun r => r.categoryId == "A"))).map
        (fun r => r.order) =
      (List.range (stShared01.records.filter (fun r => r.categoryId == "A")).length).map
        Int.ofNat ∧
    (((sortByOrder ((moveRecord "m" "A" 1 stShared01).records.filter
        (fun r => r.categoryId == "A"))).get?
        (min 1 ((stShared01.records.filter (fun r => r.categoryId == "A")).length - 1))).map
      (fun r => r.id)) = some "x" ∧
    ("x" : String) ≠ "m" := by
  refine ⟨by decide, by decide, by decide, by decide⟩

/-- C5 witness: the theorem applied to a concrete two-record category,
moving `r1` to position `1`. -/
theorem c5_move_within_category_witness :
    ((idsOf stPair.records).Nodup ∧
     stPair.records.find? (fun r => r.id == "r1") = some (mkRec "r1" "P" "A" 0) ∧
     (mkRec "r1" "P" "A" 0).categoryId = "A" ∧
     (∀ r ∈ stPair.records, r.categoryId = "A" → r.projectId = (mkRec "r1" "P" "A" 0).projectId) ∧
     (sortByOrder (stPair.records.filter (fun r => r.categoryId == "A"))).map (fun r => r.order) =
       (List.range (stPair.records.filter (fun r => r.categoryId == "A")).length).map Int.ofNat) ∧
    ((((sortByOrder ((moveRecord "r1" "A" 1 stPair).records.filter
        (fun r => r.categoryId == "A"))).get?
        (min 1 ((stPair.records.filter (fun r => r.categoryId == "A")).length - 1))).map
      (fun r => r.id)) = some "r1" ∧
     idsOf ((sortByOrder ((moveRecord "r1" "A" 1 stPair).records.filter
        (fun r => r.categoryId == "A"))).filter (fun r => r.id != "r1")) =
      idsOf ((sortByOrder (stPair.records.filter (fun r => r.categoryId == "A"))).filter
        (fun r => r.id != "r1")) ∧
     (sortByOrder ((moveRecord "r1" "A" 1 stPair).records.filter
        (fun r => r.categoryId == "A"))).map (fun r => r.order) =
      (List.range (stPair.records.filter (fun r => r.categoryId == "A")).length).map Int.ofNat) :=
  ⟨⟨by decide, by decide, by decide, by decide, by decide⟩,
   c5_move_within_category stPair "r1" "A" 1 (mkRec "r1" "P" "A" 0)
     (by decide) (by decide) (by decide) (by decide) (by decide)⟩

/-- C9: `moveRecord` on an existing record preserves the projects, the
categories, the list of record ids (even positionally), and every field of
every record except the moved record's `categoryId` and the `order` fields;
records outside the source and destination groups are completely
unchanged. -/
theorem c9_moveRecord_frame (s : AppState) (rid cn : String) (n : Nat)
    (record : RecordItem)
    (hnd : (idsOf s.records).Nodup)
    (hf : s.records.find? (fun r => r.id == rid) = some record) :
    (moveRecord rid cn n s).projects = s.projects ∧
    (moveRecord rid cn n s).categories = s.categories ∧
    idsOf (moveRecord rid cn n s).records = idsOf s.records ∧
    List.Forall₂ (fun a b =>
      SameCore b a ∧
      (¬(a.id = rid) → b.categoryId = a.categoryId) ∧
      (¬(a.id = rid) →
        ¬(a.categoryId = record.categoryId ∧ a.projectId = record.projectId) →
        ¬(a.categoryId = cn ∧ a.projectId = record.projectId) → b = a))
      s.records (moveRecord rid cn n s).records := by
  have hrecs : (moveRecord rid cn n s).records = moveRecordAux s.records rid cn n := rfl
  have hrid : record.id = rid := by simpa using List.find?_some hf
  have hrecmem : record ∈ s.records := List.mem_of_find?_eq_some hf
  by_cases hsame : record.categoryId = cn
  · -- same-category branch
    have hmemg : record ∈ gSameOf s.records record :=
      (sortByOrder_perm _).mem_iff.mpr (List.mem_filter.mpr ⟨hrecmem, by simp⟩)
    have hqex := posFind_isSome_of_mem hmemg hrid
    cases hq : posFind (gSameOf s.records record) rid with
    | none => rw [hq] at hqex; simp at hqex
    | some q =>
    have hmap := @moveRecordAux_same s.records rid cn n hnd record hf hsame q hq
    refine ⟨rfl, rfl, ?_, ?_⟩
    · rw [hrecs, hmap]
      exact idsOf_map_keepOrd _ _
    · rw [hrecs, hmap]
      apply List.forall₂_map_right_iff.mpr
      apply List.forall₂_same.mpr
      intro a ha
      refine ⟨keepOrd_core _ a, fun _ => (keepOrd_fields _ a).2.1, ?_⟩
      intro _ hne2 _
      apply keepOrd_of_none
      apply posFind_eq_none_of_not_mem
      intro hmem
      have hmem2 := (@same_spl_ids_perm s.records rid n record q hq).mem_iff.mp hmem
      rcases mem_idsOf.mp hmem2 with ⟨y, hy, hyid⟩
      have hyr : y ∈ s.records := List.mem_of_mem_filter hy
      have hyx : y = a := eq_of_mem_of_nodup_ids hnd hyr ha hyid
      subst hyx
      have hpy := List.of_mem_filter hy
      simp only [Bool.and_eq_true, beq_iff_eq] at hpy
      exact hne2 ⟨hpy.1, hpy.2⟩
  · -- cross-category branch
    have hmap := @moveRecordAux_cross s.records rid cn n hnd record hf hsame
    refine ⟨rfl, rfl, ?_, ?_⟩
    · rw [hrecs, hmap, idsOf_def, idsOf_def, List.map_map]
      apply List.map_congr_left
      intro x _
      show (lookupOrd _ (keepOrd _ x)).id = x.id
      rw [lookupOrd_id, keepOrd_id]
    · rw [hrecs, hmap]
      apply List.forall₂_map_right_iff.mpr
      apply List.forall₂_same.mpr
      intro a ha
      by_cases har : a.id = rid
      · have haeq : a = record := eq_of_mem_of_nodup_ids hnd ha hrecmem (har.trans hrid.symm)
        subst haeq
        have key := @cross_phi_moved s.records rid cn n hnd a hf hsame
        unfold splOf gOldOf gNewOf at key
        rw [key]
        exact ⟨⟨rfl, rfl, rfl, rfl, rfl, rfl, rfl⟩,
          fun hne1 => absurd har hne1, fun hne1 _ _ => absurd har hne1⟩
      · have hc := @cross_phi_core s.records rid cn n hnd record hf a ha har
        unfold splOf gOldOf gNewOf at hc
        refine ⟨hc.1, fun _ => hc.2, ?_⟩
        intro _ hne2 hne3
        have ho := @cross_phi_other s.records rid cn n hnd record hf hsame a ha har hne2 hne3
        unfold splOf gOldOf gNewOf at ho
        exact ho

/-- C9 witness: the theorem applied to a concrete state, moving record `a`
from category `A` to category `B`. -/
theorem c9_moveRecord_frame_witness :
    ((idsOf stTwoCats.records).Nodup ∧
     stTwoCats.records.find? (fun r => r.id == "a") = some (mkRec "a" "P" "A" 0)) ∧
    ((moveRecord "a" "B" 0 stTwoCats).projects = stTwoCats.projects ∧
     (moveRecord "a" "B" 0 stTwoCats).categories = stTwoCats.categories ∧
     idsOf (moveRecord "a" "B" 0 stTwoCats).records = idsOf stTwoCats.records ∧
     List.Forall₂ (fun a b =>
       SameCore b a ∧
       (¬(a.id = "a") → b.categoryId = a.categoryId) ∧
       (¬(a.id = "a") →
         ¬(a.categoryId = (mkRec "a" "P" "A" 0).categoryId ∧
           a.projectId = (mkRec "a" "P" "A" 0).projectId) →
         ¬(a.categoryId = "B" ∧ a.projectId = (mkRec "a" "P" "A" 0).projectId) → b = a))
       stTwoCats.records (moveRecord "a" "B" 0 stTwoCats).records) :=
  ⟨⟨by decide, by decide⟩,
   c9_moveRecord_frame stTwoCats "a" "B" 0 (mkRec "a" "P" "A" 0) (by decide) (by decide)⟩

theorem groupOk_all {recs : List RecordItem} (hinv : OrdersInv recs) (c p : String) :
    groupOk recs c p := by
  cases hfl : recs.filter (catProj c p) with
  | nil =>
    unfold groupOk
    rw [hfl]
    simp
  | cons r0 rest =>
    have hr0 : r0 ∈ recs.filter (catProj c p) := by
      rw [hfl]
      exact List.mem_cons_self r0 rest
    have hmem : r0 ∈ recs := List.mem_of_mem_filter hr0
    have hcp := List.of_mem_filter hr0
    unfold catProj at hcp
    simp only [Bool.and_eq_true, beq_iff_eq] at hcp
    have hg := hinv r0 hmem
    rw [hcp.1, hcp.2] at hg
    exact hg

theorem append_one_inv {recs : List RecordItem} (hinv : OrdersInv recs) {x : RecordItem}
    (hx : x.order = Int.ofNat (recs.filter (catProj x.categoryId x.projectId)).length) :
    OrdersInv (recs ++ [x]) := by
  intro r hr
  suffices hall : ∀ c p, groupOk (recs ++ [x]) c p from hall r.categoryId r.projectId
  intro c p
  unfold groupOk
  rw [List.filter_append]
  by_cases hm : catProj c p x = true
  · have hfx : [x].filter (catProj c p) = [x] := by
      rw [List.filter_cons]
      simp [hm]
    rw [hfx]
    have hm2 : x.categoryId = c ∧ x.projectId = p := by
      unfold catProj at hm
      simpa using hm
    have hgs := groupOk_all hinv c p
    unfold groupOk at hgs
    have hxo : x.order = Int.ofNat (recs.filter (catProj c p)).length := by
      rw [hx, hm2.1, hm2.2]
    rw [List.map_append, List.length_append]
    simp only [List.map_cons, List.map_nil, List.length_cons, List.length_nil]
    rw [hxo]
    have hL : (recs.filter (catProj c p)).length + (0 + 1) =
        (recs.filter (catProj c p)).length + 1 := by omega
    rw [hL, List.range_succ, List.map_append]
    exact List.Perm.append hgs (List.Perm.refl _)
  · have hfx : [x].filter (catProj c p) = [] := by
      rw [List.filter_cons]
      simp only [hm, Bool.false_eq_true, if_false]
      rfl
    rw [hfx, List.append_nil]
    exact groupOk_all hinv c p

theorem addRecord_inv (s : AppState) (input : RecordInput) (rid lid : String)
    (now : Int) (hinv : OrdersInv s.records) :
    OrdersInv ((addRecord input rid lid now s).records) := by
  refine append_one_inv hinv ?_
  show Int.ofNat (s.records.filter
      (fun r => r.projectId == input.projectId && r.categoryId == input.categoryId)).length =
    Int.ofNat (s.records.filter (catProj input.categoryId input.projectId)).length
  have hfc : s.records.filter
      (fun r => r.projectId == input.projectId && r.categoryId == input.categoryId) =
      s.records.filter (catProj input.categoryId input.projectId) :=
    List.filter_congr (fun y _ => by unfold catProj; rw [Bool.and_comm])
  rw [hfc]

theorem moveRecord_inv (s : AppState) (rid2 cn : String) (n : Nat)
    (hnd : (idsOf s.records).Nodup) (hinv : OrdersInv s.records) :
    OrdersInv ((moveRecord rid2 cn n s).records) := by
  intro r hr
  suffices hall : ∀ c p, groupOk (moveRecordAux s.records rid2 cn n) c p from
    hall r.categoryId r.projectId
  intro c p
  cases hfm : s.records.find? (fun r => r.id == rid2) with
  | none =>
    rw [moveRecordAux_none hfm]
    exact groupOk_all hinv c p
  | some record =>
    by_cases hsame : record.categoryId = cn
    · have hrid : record.id = rid2 := by simpa using List.find?_some hfm
      have hrecmem : record ∈ s.records := List.mem_of_find?_eq_some hfm
      have hmemg : record ∈ gSameOf s.records record :=
        (sortByOrder_perm _).mem_iff.mpr (List.mem_filter.mpr ⟨hrecmem, by simp⟩)
      have hqex := posFind_isSome_of_mem hmemg hrid
      cases hq : posFind (gSameOf s.records record) rid2 with
      | none => rw [hq] at hqex; simp at hqex
      | some q =>
      by_cases hgrp : c = record.categoryId ∧ p = record.projectId
      · obtain ⟨rfl, rfl⟩ := hgrp
        exact same_groupOk hnd hfm hsame hq
      · have hres := @same_other_group s.records rid2 cn n hnd record hfm hsame q hq c p hgrp
        unfold groupOk catProj
        rw [hres]
        have hgs := groupOk_all hinv c p
        unfold groupOk catProj at hgs
        exact hgs
    · by_cases hgrp1 : c = record.categoryId ∧ p = record.projectId
      · obtain ⟨rfl, rfl⟩ := hgrp1
        exact cross_src_groupOk hnd hfm hsame
      · by_cases hgrp2 : c = cn ∧ p = record.projectId
        · obtain ⟨rfl, rfl⟩ := hgrp2
          exact cross_dest_groupOk hnd hfm hsame
        · have hres := @cross_other_group s.records rid2 cn n hnd record hfm hsame c p hgrp1 hgrp2
          unfold groupOk catProj
          rw [hres]
          have hgs := groupOk_all hinv c p
          unfold groupOk catProj at hgs
          exact hgs

/-- C1 (amended): the ordering invariant, stated per
`(projectId, categoryId)` group (the grouping every reindexing operation of
the store actually uses): in a state with distinct record ids whose groups
carry contiguous zero-based orders, `addRecord` and `moveRecord` return a
state whose groups again carry contiguous zero-based orders. `deleteRecord`
does not reindex the remaining records, so it does not preserve the
invariant (see the counterexample). -/
theorem c1_ordering_invariant (s : AppState) (input : RecordInput)
    (rid lid rid2 cn : String) (now : Int) (n : Nat)
    (hnd : (idsOf s.records).Nodup) (hinv : OrdersInv s.records) :
    OrdersInv ((addRecord input rid lid now s).records) ∧
    OrdersInv ((moveRecord rid2 cn n s).records) :=
  ⟨addRecord_inv s input rid lid now hinv, moveRecord_inv s rid2 cn n hnd hinv⟩

/-- C1 counterexample: `deleteRecord` merely filters out the record; on a
category with orders `0, 1`, deleting the order-`0` record leaves the other
record with order `1`, a gap, so the invariant does not survive
`deleteRecord`. -/
theorem c1_counterexample :
    OrdersInv stPair.records ∧
    ¬ OrdersInv ((deleteRecord "r1" "lg" 5 stPair).records) := by
  refine ⟨by decide, by decide⟩

/-- C1 witness: the theorem applied to a concrete well-ordered state,
adding a record to category `A` and moving record `a` to category `B`. -/
theorem c1_ordering_invariant_witness :
    ((idsOf stTwoCats.records).Nodup ∧ OrdersInv stTwoCats.records) ∧
    (OrdersInv ((addRecord ⟨"P", "A", "t", "", RecordType.normal, none⟩ "zz" "lg" 7 stTwoCats).records) ∧
     OrdersInv ((moveRecord "a" "B" 0 stTwoCats).records)) :=
  ⟨⟨by decide, by decide⟩,
   c1_ordering_invariant stTwoCats ⟨"P", "A", "t", "", RecordType.normal, none⟩
     "zz" "lg" "a" "B" 7 0 (by decide) (by decide)⟩
